import Mathlib

/-!
# Verification of the codex_agent task-DAG engine and lifecycle orchestrator

Shallow embedding of `src/codex_agent/dag/engine.py` (class `TaskDAG`) and
`src/codex_agent/core/orchestrator.py` (class `Orchestrator`), together with
proofs about the embedded operations.

Modelling conventions:
* Task identifiers (Python `str`) are modelled as `Nat`; the engine only ever
  compares them for equality and uses them as dict keys.
* `datetime` values are modelled as `Nat` timestamps (only their total order is
  used); the current time is passed explicitly where the code calls
  `datetime.utcnow()`.
* Python dicts are modelled as insertion-ordered association lists with unique
  keys: assignment replaces the value in place when the key is present
  (Python keeps the key's original position) and appends otherwise.
* `defaultdict(list)` reads are modelled as a lookup returning `[]` for a
  missing key.  The CPython detail that `d[k]` materialises an empty entry for
  a missing key is not modelled: an absent key and a key holding `[]` are
  indistinguishable through every operation modelled here.
* `Task` fields never consulted by the two embedded classes (`type`, `title`,
  `description`, `target_files`, `verification`, audit metadata, ...) are
  omitted.
* Methods that mutate `self` are modelled as functions returning the posterior
  state; methods that can raise return an `Except` whose error value carries
  the data the raised exception is built from, plus the posterior state when
  the code has already mutated `self` before raising.
-/

namespace CodexAgent

/-! ## Data model (core/models.py) -/

/-- `TaskStatus` enum from `core/models.py`. -/
inductive TaskStatus
  | pending
  | running
  | completed
  | failed
  | blocked
  | skipped
deriving DecidableEq, Repr

/-- `Task` model from `core/models.py`, restricted to the fields the DAG engine
reads: `id`, `dependencies`, `status`, `priority` (lower = higher priority) and
`created_at`. -/
structure Task where
  id : Nat
  dependencies : List Nat
  status : TaskStatus
  priority : Int
  created_at : Nat
deriving DecidableEq, Repr

/-- `LifecycleState` enum from `core/models.py`. -/
inductive LifecycleState
  | idle
  | planning
  | scaffolding
  | building
  | verifying
  | deploying
  | observing
  | maintaining
  | failed
deriving DecidableEq, Repr

/-- `StateTransition` model from `core/models.py` (the `metadata` dict, always
defaulted by the orchestrator, is omitted). -/
structure StateTransition where
  from_state : LifecycleState
  to_state : LifecycleState
  timestamp : Nat
  trigger : String
deriving DecidableEq, Repr

/-! ## Python dict as an insertion-ordered association list -/

/-- `d[k] = v`: replace in place if `k` is present, else append at the end. -/
def dictSet {α : Type} (d : List (Nat × α)) (k : Nat) (v : α) : List (Nat × α) :=
  match d with
  | [] => [(k, v)]
  | (k', v') :: rest => if k' = k then (k, v) :: rest else (k', v') :: dictSet rest k v

/-- `d.get(k)` / `d[k]` lookup: first entry with key `k`. -/
def dictGet? {α : Type} (d : List (Nat × α)) (k : Nat) : Option α :=
  match d with
  | [] => none
  | (k', v') :: rest => if k' = k then some v' else dictGet? rest k

/-- `del d[k]`: drop the first entry with key `k` (a no-op when absent). -/
def dictErase {α : Type} (d : List (Nat × α)) (k : Nat) : List (Nat × α) :=
  match d with
  | [] => []
  | (k', v') :: rest => if k' = k then rest else (k', v') :: dictErase rest k

/-- `k in d`. -/
def dictContains {α : Type} (d : List (Nat × α)) (k : Nat) : Bool :=
  (dictGet? d k).isSome

/-- `defaultdict(list)` read: `[]` when the key is absent. -/
def dlGet (d : List (Nat × List Nat)) (k : Nat) : List Nat :=
  (dictGet? d k).getD []

/-- `d[k].append(x)` on a `defaultdict(list)`. -/
def dlAppend (d : List (Nat × List Nat)) (k : Nat) (x : Nat) : List (Nat × List Nat) :=
  dictSet d k (dlGet d k ++ [x])

/-- `if x in d[k]: d[k].remove(x)` on a `defaultdict(list)`: drop the first
occurrence of `x` from the list at `k`. -/
def dlRemoveOne (d : List (Nat × List Nat)) (k : Nat) (x : Nat) : List (Nat × List Nat) :=
  if x ∈ dlGet d k then dictSet d k ((dlGet d k).erase x) else d

/-! ## TaskDAG state (dag/engine.py) -/

/-- The `TaskDAG` instance state: `tasks`, `_adjacency_list`
(dependency id → list of dependent ids) and `_reverse_adjacency`
(task id → list of its dependency ids). -/
structure TaskDAG where
  tasks : List (Nat × Task)
  adjacency_list : List (Nat × List Nat)
  reverse_adjacency : List (Nat × List Nat)
deriving DecidableEq, Repr

/-- `TaskDAG.__init__`. -/
def emptyDAG : TaskDAG := ⟨[], [], []⟩

/-- The edge relation stored in an adjacency index: `u → v` when `v` occurs in
the list at key `u` (for `_adjacency_list` this is dependency → dependent). -/
def edgeRel (adj : List (Nat × List Nat)) (u v : Nat) : Prop :=
  v ∈ dlGet adj u

instance (adj : List (Nat × List Nat)) (u v : Nat) : Decidable (edgeRel adj u v) :=
  inferInstanceAs (Decidable (v ∈ dlGet adj u))

/-! ### `_has_cycle`: depth-first search with a recursion-stack set

The Python recursion is modelled with explicit fuel; `path` is the recursion
stack (`rec_stack`) and `visited` the global visited set.  Fuel is only
consumed when descending into an unvisited node, so fuel equal to the number
of nodes mentioned anywhere in the graph can never run out (proved below);
the fuel-exhaustion branch conservatively reports a cycle. -/

/-- DFS over the remaining neighbour list of the node at the head of `path`.
Mirrors the body of the inner `dfs` of `TaskDAG._has_cycle`: an unvisited
neighbour is descended into, a visited neighbour on the recursion stack
reports a cycle.  Returns the grown visited set and the cycle flag.  One unit
of fuel is consumed per neighbour processed; the fuel-exhaustion branch
(which conservatively reports a cycle) is unreachable for the fuel
`has_cycle` supplies, so the function agrees with the unbounded Python
recursion. -/
def dfsList (adj : List (Nat × List Nat)) :
    Nat → List Nat → List Nat → List Nat → (List Nat × Bool)
  | _, [], visited, _ => (visited, false)
  | 0, _ :: _, visited, _ => (visited, true)
  | fuel + 1, v :: vs, visited, path =>
    if v ∈ visited then
      if v ∈ path then (visited, true) else dfsList adj fuel vs visited path
    else
      match dfsList adj fuel (dlGet adj v) (v :: visited) (v :: path) with
      | (visited', true) => (visited', true)
      | (visited', false) => dfsList adj fuel vs visited' path

/-- The outer loop of `TaskDAG._has_cycle`: launch a DFS from every not yet
visited task id. -/
def hasCycleLoop (adj : List (Nat × List Nat)) (fuel : Nat) :
    List Nat → List Nat → Bool
  | [], _ => false
  | t :: ts, visited =>
    if t ∈ visited then hasCycleLoop adj fuel ts visited
    else
      match dfsList adj fuel (dlGet adj t) (t :: visited) [t] with
      | (_, true) => true
      | (visited', false) => hasCycleLoop adj fuel ts visited'

/-- Every node id mentioned anywhere in the DAG (task keys, adjacency keys and
adjacency list members). -/
def dagNodes (dag : TaskDAG) : List Nat :=
  dag.tasks.map Prod.fst ++ dag.adjacency_list.map Prod.fst
    ++ (dag.adjacency_list.map Prod.snd).flatten

/-- A fuel budget exceeding the total number of DFS steps possible in the
graph (each node is entered at most once and each adjacency entry is scanned
at most once per entering node). -/
def dfsFuel (dag : TaskDAG) : Nat :=
  2 * (dagNodes dag).length +
    2 * ((dagNodes dag).map fun u => (dlGet dag.adjacency_list u).length).sum + 1

/-- `TaskDAG._has_cycle`. -/
def has_cycle (dag : TaskDAG) : Bool :=
  hasCycleLoop dag.adjacency_list (dfsFuel dag) (dag.tasks.map Prod.fst) []

/-! ### `add_task`, `remove_task`, lookups -/

/-- The insertion half of `TaskDAG.add_task` (everything before the
`_has_cycle` validation): store the task, replacing an existing record with
the same id, and append one forward and one reverse edge per dependency
entry. -/
def insertTask (dag : TaskDAG) (task : Task) : TaskDAG :=
  { tasks := dictSet dag.tasks task.id task
    adjacency_list :=
      task.dependencies.foldl (fun a dep => dlAppend a dep task.id) dag.adjacency_list
    reverse_adjacency :=
      task.dependencies.foldl (fun r dep => dlAppend r task.id dep) dag.reverse_adjacency }

/-- `TaskDAG.add_task`.  Inserts the task and its edges, then runs
`_has_cycle`; on a cycle it deletes the task entry (the Python code does not
remove the freshly inserted edges) and raises `DAGCycleError`, modelled as an
error carrying the offending task id and the posterior state. -/
def add_task (dag : TaskDAG) (task : Task) : Except (Nat × TaskDAG) TaskDAG :=
  let dag' := insertTask dag task
  if has_cycle dag' then
    Except.error (task.id, { dag' with tasks := dictErase dag'.tasks task.id })
  else
    Except.ok dag'

/-- `add_task` for a whole list of tasks, stopping at the first
`DAGCycleError` (the driver pattern of the spec and the unit tests). -/
def addAll (dag : TaskDAG) : List Task → Except (Nat × TaskDAG) TaskDAG
  | [] => Except.ok dag
  | t :: ts =>
    match add_task dag t with
    | Except.ok dag' => addAll dag' ts
    | Except.error e => Except.error e

/-- The DAG state whose task dict and adjacency indexes are exactly the ones
`add_task` derives for the given tasks in the given order (insertion without
the cycle validation): the state of a graph of successfully inserted tasks. -/
def derivedDAG (ts : List Task) : TaskDAG :=
  ts.foldl insertTask emptyDAG

/-- `TaskDAG.remove_task`: a logged no-op when the id is absent; otherwise the
task id is removed from `_adjacency_list[dep]` for each of its dependencies,
from `_reverse_adjacency[dependent]` for each of its recorded dependents, and
the task entry and both of its own index entries are deleted. -/
def remove_task (dag : TaskDAG) (task_id : Nat) : TaskDAG :=
  match dictGet? dag.tasks task_id with
  | none => dag
  | some task =>
    let adj1 := task.dependencies.foldl (fun a dep => dlRemoveOne a dep task_id)
      dag.adjacency_list
    let radj1 := (dlGet adj1 task_id).foldl (fun r dependent => dlRemoveOne r dependent task_id)
      dag.reverse_adjacency
    { tasks := dictErase dag.tasks task_id
      adjacency_list := dictErase adj1 task_id
      reverse_adjacency := dictErase radj1 task_id }

/-- `TaskDAG.get_task`. -/
def get_task (dag : TaskDAG) (task_id : Nat) : Option Task :=
  dictGet? dag.tasks task_id

/-- `TaskDAG.get_all_tasks`. -/
def get_all_tasks (dag : TaskDAG) : List Task :=
  dag.tasks.map Prod.snd

/-! ### `get_ready_tasks`, `get_next_task` -/

/-- The generator condition inside `get_ready_tasks`: every dependency that is
present in the graph has status `COMPLETED` (an absent dependency is skipped
by the `if dep_id in self.tasks` guard). -/
def depsCompleted (tasks : List (Nat × Task)) (task : Task) : Bool :=
  task.dependencies.all fun dep =>
    match dictGet? tasks dep with
    | some d => d.status = TaskStatus.completed
    | none => true

/-- The sort key comparison used by `ready.sort(key=lambda t: (t.priority,
t.created_at))`: lexicographic non-strict order on the key tuple. -/
def taskKeyLE (a b : Task) : Bool :=
  a.priority < b.priority || (a.priority = b.priority && a.created_at ≤ b.created_at)

/-- Stable insertion into a list sorted by `taskKeyLE`: the new element goes
after every element whose key is ≤ its own, as Python's stable sort would
place it. -/
def sortInsert (x : Task) : List Task → List Task
  | [] => [x]
  | y :: ys => if taskKeyLE y x then y :: sortInsert x ys else x :: y :: ys

/-- Stable sort by `(priority, created_at)`.  Python's `list.sort` is stable;
any stable sort produces the identical list, so stable insertion sort is an
observationally exact model. -/
def stableSortTasks (l : List Task) : List Task :=
  l.foldl (fun acc x => sortInsert x acc) []

/-- `TaskDAG.get_ready_tasks`: pending tasks whose present dependencies are all
completed, sorted by `(priority, created_at)`. -/
def get_ready_tasks (dag : TaskDAG) : List Task :=
  stableSortTasks ((dag.tasks.map Prod.snd).filter fun t =>
    t.status = TaskStatus.pending && depsCompleted dag.tasks t)

/-- `TaskDAG.get_next_task`: head of the ready list, if any. -/
def get_next_task (dag : TaskDAG) : Option Task :=
  (get_ready_tasks dag).head?

/-! ### `get_blocked_tasks` (a mutating read) -/

/-- Terminal-status test `task.status in [COMPLETED, FAILED, SKIPPED]`. -/
def isTerminalStatus (s : TaskStatus) : Bool :=
  s = TaskStatus.completed || s = TaskStatus.failed || s = TaskStatus.skipped

/-- `any dependency present in the graph has status FAILED`. -/
def hasFailedDep (tasks : List (Nat × Task)) (task : Task) : Bool :=
  task.dependencies.any fun dep =>
    match dictGet? tasks dep with
    | some d => d.status = TaskStatus.failed
    | none => false

/-- One iteration of the `get_blocked_tasks` scan at key `tid`, threading the
accumulated blocked list and the (partially reclassified) task dict. -/
def blockedStep (acc : List Task × List (Nat × Task)) (tid : Nat) :
    List Task × List (Nat × Task) :=
  let (blocked, tasks) := acc
  match dictGet? tasks tid with
  | none => acc
  | some task =>
    if isTerminalStatus task.status then acc
    else if hasFailedDep tasks task then
      let task' := { task with status := TaskStatus.blocked }
      (blocked ++ [task'], dictSet tasks tid task')
    else acc

/-- `TaskDAG.get_blocked_tasks`: scans the task dict in order; every
non-terminal task with a present failed dependency is reclassified to
`BLOCKED` in place and collected.  Returns the collected list and the
posterior DAG. -/
def get_blocked_tasks (dag : TaskDAG) : List Task × TaskDAG :=
  let (blocked, tasks') := (dag.tasks.map Prod.fst).foldl blockedStep ([], dag.tasks)
  (blocked, { dag with tasks := tasks' })

/-! ### `topological_sort` (Kahn's algorithm) -/

/-- The `in_degree` dict: one entry per `_reverse_adjacency` item (its list
length), then a zero entry appended for every task id not yet present. -/
def initInDegree (dag : TaskDAG) : List (Nat × Int) :=
  (dag.tasks.map Prod.fst).foldl
    (fun d k => if dictContains d k then d else d ++ [(k, 0)])
    (dag.reverse_adjacency.map fun p => (p.1, (p.2.length : Int)))

/-- Processing the dependents of one dequeued node: decrement each dependent's
in-degree and enqueue it when the decrement lands exactly on zero.  A
dependent missing from `in_degree` is skipped (in CPython that would be a
`KeyError`; no state considered in this development reaches it). -/
def kahnVisit (acc : List (Nat × Int) × List Nat) (v : Nat) :
    List (Nat × Int) × List Nat :=
  let (indeg, q) := acc
  match dictGet? indeg v with
  | none => acc
  | some d =>
    (dictSet indeg v (d - 1), if d - 1 = 0 then q ++ [v] else q)

/-- The Kahn worklist loop: dequeue from the front, append the node id to the
result, process its dependents.  One unit of fuel per dequeue; fuel equal to
the number of `in_degree` entries never runs out (each key is enqueued at most
once), and on exhaustion the partial result is returned. -/
def kahnLoop (adj : List (Nat × List Nat)) :
    Nat → List Nat → List (Nat × Int) → List Nat → List Nat
  | _, [], _, result => result
  | 0, _ :: _, _, result => result
  | fuel + 1, u :: queue, indeg, result =>
    let step := (dlGet adj u).foldl kahnVisit (indeg, queue)
    kahnLoop adj fuel step.2 step.1 (result ++ [u])

/-- The sequence of node ids `TaskDAG.topological_sort` pops, in order. -/
def topoIds (dag : TaskDAG) : List Nat :=
  let indeg := initInDegree dag
  let queue := (indeg.filter fun p => p.2 = 0).map Prod.fst
  kahnLoop dag.adjacency_list indeg.length queue indeg []

/-- `TaskDAG.topological_sort`: raises `DAGCycleError` (modelled as
`Except.error ()`) when the popped set is smaller than the task count,
otherwise returns the popped tasks in order. -/
def topological_sort (dag : TaskDAG) : Except Unit (List Task) :=
  let ids := topoIds dag
  if ids.length = dag.tasks.length then
    Except.ok (ids.filterMap (dictGet? dag.tasks))
  else
    Except.error ()

/-- `TaskDAG.get_task_dependencies`: the present tasks among a task's listed
dependencies ([] for an unknown id). -/
def get_task_dependencies (dag : TaskDAG) (task_id : Nat) : List Task :=
  match dictGet? dag.tasks task_id with
  | none => []
  | some task => task.dependencies.filterMap fun dep => dictGet? dag.tasks dep

/-- `TaskDAG.get_task_dependents`: the present tasks among
`_adjacency_list[task_id]`. -/
def get_task_dependents (dag : TaskDAG) (task_id : Nat) : List Task :=
  (dlGet dag.adjacency_list task_id).filterMap fun d => dictGet? dag.tasks d

/-! ### Specification-level notions used to state the claims -/

/-- The dependency edge relation of a task set: `depEdge ts d t` when some task
in `ts` has id `t` and lists `d` among its dependencies (the edge runs
dependency → dependent, like `_adjacency_list`). -/
def depEdge (ts : List Task) (d t : Nat) : Prop :=
  ∃ task ∈ ts, task.id = t ∧ d ∈ task.dependencies

/-- A dependency cycle among the graph's tasks: some task id lies on a
nontrivial `_adjacency_list`-edge loop. -/
def CyclePresent (dag : TaskDAG) : Prop :=
  ∃ u, u ∈ dag.tasks.map Prod.fst ∧ Relation.TransGen (edgeRel dag.adjacency_list) u u

/-- The DFS recursion stack read bottom-up: each stack entry has an edge to the
entry pushed on top of it. -/
def pathChain (adj : List (Nat × List Nat)) : List Nat → Prop
  | [] => True
  | [_] => True
  | a :: b :: rest => edgeRel adj b a ∧ pathChain adj (b :: rest)

/-- How many edges into `k` the popped ids of `result` have contributed: the
number of decrements `k` has received in Kahn's loop. -/
def popCountNat (adj : List (Nat × List Nat)) (result : List Nat) (k : Nat) : Nat :=
  (result.map fun r => (dlGet adj r).count k).sum

/-- The total number of edges into `k` whose source lies in `src`. -/
def inDegNat (adj : List (Nat × List Nat)) (src : List Nat) (k : Nat) : Nat :=
  (src.map fun r => (dlGet adj r).count k).sum

/-- `result` respects the edges: whenever `k` occurs in `result`, every source
in `src` of an edge into `k` occurs strictly earlier. -/
def DepsBefore (adj : List (Nat × List Nat)) (src result : List Nat) : Prop :=
  ∀ pre k post, result = pre ++ k :: post → ∀ s ∈ src, k ∈ dlGet adj s → s ∈ pre

/-- Weight of a node for the DFS fuel argument: one step to enter it plus one
step per outgoing adjacency entry. -/
def nodeWeight (adj : List (Nat × List Nat)) (u : Nat) : Nat :=
  1 + (dlGet adj u).length

/-- Total weight of the nodes of `univ` not yet visited: an upper bound on the
DFS steps still possible. -/
def unseenWeight (adj : List (Nat × List Nat)) (univ visited : List Nat) : Nat :=
  ∑ u ∈ univ.toFinset.filter (fun u => u ∉ visited), nodeWeight adj u

/-- The `_adjacency_list` entry at key `k` of the graph derived from inserting
the tasks of `ts` in order: each task contributes its id once per occurrence
of `k` in its dependency list. -/
def specAdjAt (ts : List Task) (k : Nat) : List Nat :=
  (ts.map fun t => List.replicate (t.dependencies.count k) t.id).flatten

/-- The `_reverse_adjacency` entry at key `k` of the graph derived from
inserting the tasks of `ts` in order. -/
def specRadjAt (ts : List Task) (k : Nat) : List Nat :=
  (ts.map fun t => if t.id = k then t.dependencies else []).flatten

/-- The status override `get_blocked_tasks` applies: every entry whose key is
in `S` is reclassified to `BLOCKED`. -/
def applyBlocked (tasks : List (Nat × Task)) (S : List Nat) : List (Nat × Task) :=
  tasks.map fun p =>
    (p.1, if p.1 ∈ S then { p.2 with status := TaskStatus.blocked } else p.2)

/-- Whether `get_blocked_tasks` reclassifies the task stored at key `k`, read
off the pre-call dict: the record is non-terminal and has a present failed
dependency. -/
def blocksAt (tasks : List (Nat × Task)) (k : Nat) : Bool :=
  match dictGet? tasks k with
  | none => false
  | some t => !isTerminalStatus t.status && hasFailedDep tasks t

/-- The keys `get_blocked_tasks` reclassifies, in scan order. -/
def blockKeys (tasks : List (Nat × Task)) : List Nat :=
  (tasks.map Prod.fst).filter (blocksAt tasks)

/-! ## Orchestrator (core/orchestrator.py) -/

/-- The `Orchestrator.TRANSITIONS` table.  Every state is a key, so the
`dict.get(current, [])` default is never taken and a total match is exact. -/
def TRANSITIONS : LifecycleState → List LifecycleState
  | .idle => [.planning]
  | .planning => [.scaffolding, .failed]
  | .scaffolding => [.building, .failed]
  | .building => [.verifying, .failed]
  | .verifying => [.deploying, .building, .failed]
  | .deploying => [.observing, .failed]
  | .observing => [.maintaining, .idle]
  | .maintaining => [.building, .observing, .idle, .failed]
  | .failed => [.idle]

/-- The `Orchestrator` instance state (the `config` object is never read by the
embedded methods and is omitted). -/
structure Orchestrator where
  current_state : LifecycleState
  previous_state : Option LifecycleState
  transition_history : List StateTransition
  current_task : Option Task
deriving DecidableEq, Repr

/-- `Orchestrator.__init__`. -/
def initOrchestrator : Orchestrator :=
  ⟨LifecycleState.idle, none, [], none⟩

/-- `Orchestrator.can_transition`. -/
def can_transition (o : Orchestrator) (to_state : LifecycleState) : Bool :=
  to_state ∈ TRANSITIONS o.current_state

/-- `Orchestrator.transition`: raises `StateTransitionError` (modelled as an
error naming the current state, the requested state and the allowed list)
before any mutation when the move is not allowed; otherwise builds the record,
sets `previous_state` and `current_state`, appends the record to the history
and returns it.  The function returns the outcome together with the posterior
orchestrator state (the prior state when the error is raised, since the code
raises before assigning anything).  `now` stands for `datetime.utcnow()`. -/
def transition (o : Orchestrator) (to_state : LifecycleState) (trigger : String) (now : Nat) :
    Except (LifecycleState × LifecycleState × List LifecycleState) StateTransition
      × Orchestrator :=
  if can_transition o to_state then
    let rec_ : StateTransition :=
      ⟨o.current_state, to_state, now, trigger⟩
    (Except.ok rec_,
      { o with
        previous_state := some o.current_state
        current_state := to_state
        transition_history := o.transition_history ++ [rec_] })
  else
    (Except.error (o.current_state, to_state, TRANSITIONS o.current_state), o)

/-- `Orchestrator.reset`: unconditionally force `current_state` to `IDLE` and
clear `current_task` (the non-failed case only logs a warning). -/
def reset (o : Orchestrator) : Orchestrator :=
  { o with current_state := LifecycleState.idle, current_task := none }

/-! ## Association-list dictionary lemmas -/

theorem dictGet?_dictSet {α : Type} (d : List (Nat × α)) (k : Nat) (v : α) (k' : Nat) :
    dictGet? (dictSet d k v) k' = if k = k' then some v else dictGet? d k' := by
  induction d with
  | nil => by_cases h : k = k' <;> simp [dictSet, dictGet?, h]
  | cons p rest ih =>
    obtain ⟨a, b⟩ := p
    by_cases ha : a = k
    · subst ha
      by_cases h : a = k' <;> simp [dictSet, dictGet?, h]
    · by_cases h : a = k'
      · subst h
        have : ¬ k = a := fun hk => ha hk.symm
        simp [dictSet, dictGet?, ha, this]
      · simp [dictSet, dictGet?, ha, h, ih]

theorem dictSet_of_get {α : Type} {d : List (Nat × α)} {k : Nat} {v : α}
    (h : dictGet? d k = some v) : dictSet d k v = d := by
  induction d with
  | nil => simp [dictGet?] at h
  | cons p rest ih =>
    obtain ⟨a, b⟩ := p
    by_cases ha : a = k
    · subst ha
      simp [dictGet?] at h
      simp [dictSet, h]
    · simp [dictGet?, ha] at h
      simp [dictSet, ha, ih h]

theorem mem_of_dictGet? {α : Type} {d : List (Nat × α)} {k : Nat} {v : α}
    (h : dictGet? d k = some v) : (k, v) ∈ d := by
  induction d with
  | nil => simp [dictGet?] at h
  | cons p rest ih =>
    obtain ⟨a, b⟩ := p
    by_cases ha : a = k
    · subst ha
      simp [dictGet?] at h
      simp [h]
    · simp [dictGet?, ha] at h
      simp [ih h]

theorem dictGet?_of_mem {α : Type} {d : List (Nat × α)} {k : Nat} {v : α}
    (hN : (d.map Prod.fst).Nodup) (h : (k, v) ∈ d) : dictGet? d k = some v := by
  induction d with
  | nil => simp at h
  | cons p rest ih =>
    obtain ⟨a, b⟩ := p
    rw [List.map_cons, List.nodup_cons] at hN
    rcases List.mem_cons.mp h with h | h
    · obtain ⟨hk, hv⟩ := Prod.mk.injEq k v a b ▸ h
      subst hk
      subst hv
      simp [dictGet?]
    · have hN1 : a ∉ List.map Prod.fst rest := hN.1
      have hk : k ∈ List.map Prod.fst rest := List.mem_map_of_mem Prod.fst h
      have ha : a ≠ k := by
        intro he
        rw [he] at hN1
        exact hN1 hk
      simp [dictGet?, ha, ih hN.2 h]

theorem dictGet?_dictErase_self {α : Type} {d : List (Nat × α)} {k : Nat}
    (hN : (d.map Prod.fst).Nodup) : dictGet? (dictErase d k) k = none := by
  induction d with
  | nil => simp [dictErase, dictGet?]
  | cons p rest ih =>
    obtain ⟨a, b⟩ := p
    rw [List.map_cons, List.nodup_cons] at hN
    by_cases ha : a = k
    · subst ha
      have he : dictErase ((a, b) :: rest) a = rest := by simp [dictErase]
      rw [he]
      have hN1 : a ∉ List.map Prod.fst rest := hN.1
      cases hrest : dictGet? rest a with
      | none => rfl
      | some v =>
        exact absurd (List.mem_map_of_mem Prod.fst (mem_of_dictGet? hrest)) hN1
    · simp [dictErase, ha, dictGet?, ih hN.2]

theorem dictGet?_dictErase_ne {α : Type} (d : List (Nat × α)) {k k' : Nat}
    (h : k' ≠ k) : dictGet? (dictErase d k) k' = dictGet? d k' := by
  induction d with
  | nil => simp [dictErase]
  | cons p rest ih =>
    obtain ⟨a, b⟩ := p
    by_cases ha : a = k
    · subst ha
      have : a ≠ k' := fun hk => h (hk ▸ rfl)
      simp [dictErase, dictGet?, this]
    · by_cases ha' : a = k'
      · subst ha'
        simp [dictErase, ha, dictGet?]
      · simp [dictErase, ha, dictGet?, ha', ih]

theorem dictSet_map_fst_of_get {α : Type} {d : List (Nat × α)} {k : Nat} (v : α)
    (h : (dictGet? d k).isSome) : (dictSet d k v).map Prod.fst = d.map Prod.fst := by
  induction d with
  | nil => simp [dictGet?] at h
  | cons p rest ih =>
    obtain ⟨a, b⟩ := p
    by_cases ha : a = k
    · subst ha
      simp [dictSet]
    · simp [dictGet?, ha] at h
      simp [dictSet, ha, ih h]

theorem dlGet_dlAppend (d : List (Nat × List Nat)) (k x k' : Nat) :
    dlGet (dlAppend d k x) k' = if k = k' then dlGet d k' ++ [x] else dlGet d k' := by
  by_cases h : k = k'
  · subst h
    simp [dlGet, dlAppend, dictGet?_dictSet]
  · simp [dlGet, dlAppend, dictGet?_dictSet, h]

/-! ## Stable sort lemmas -/

theorem taskKeyLE_total (a b : Task) : taskKeyLE a b = true ∨ taskKeyLE b a = true := by
  simp only [taskKeyLE, Bool.or_eq_true, Bool.and_eq_true, decide_eq_true_eq]
  omega

theorem taskKeyLE_trans {a b c : Task} (h₁ : taskKeyLE a b = true) (h₂ : taskKeyLE b c = true) :
    taskKeyLE a c = true := by
  simp only [taskKeyLE, Bool.or_eq_true, Bool.and_eq_true, decide_eq_true_eq] at h₁ h₂ ⊢
  omega

theorem sortInsert_perm (x : Task) (l : List Task) : (sortInsert x l).Perm (x :: l) := by
  induction l with
  | nil => simp [sortInsert]
  | cons y ys ih =>
    by_cases h : taskKeyLE y x = true
    · simp only [sortInsert]
      rw [if_pos h]
      exact (List.Perm.cons y ih).trans (List.Perm.swap x y ys)
    · simp only [sortInsert]
      rw [if_neg h]

theorem stableSortTasks_perm (l : List Task) : (stableSortTasks l).Perm l := by
  suffices h : ∀ acc : List Task, (l.foldl (fun acc x => sortInsert x acc) acc).Perm (l ++ acc) by
    simpa [stableSortTasks] using h []
  induction l with
  | nil => simp
  | cons y ys ih =>
    intro acc
    simp only [List.foldl_cons]
    have h1 := ih (sortInsert y acc)
    have h2 : (ys ++ sortInsert y acc).Perm (ys ++ y :: acc) :=
      List.Perm.append_left ys (sortInsert_perm y acc)
    have h3 : (ys ++ y :: acc).Perm (y :: (ys ++ acc)) := List.perm_middle
    exact (h1.trans h2).trans h3

theorem sortInsert_pairwise (x : Task) (l : List Task)
    (h : l.Pairwise fun a b => taskKeyLE a b = true) :
    (sortInsert x l).Pairwise fun a b => taskKeyLE a b = true := by
  induction l with
  | nil => simp [sortInsert]
  | cons y ys ih =>
    rcases List.pairwise_cons.mp h with ⟨hy, hys⟩
    by_cases hle : taskKeyLE y x = true
    · simp only [sortInsert]
      rw [if_pos hle]
      refine List.pairwise_cons.mpr ⟨?_, ih hys⟩
      intro a ha
      rcases List.mem_cons.mp ((sortInsert_perm x ys).mem_iff.mp ha) with h' | h'
      · exact h' ▸ hle
      · exact hy a h'
    · simp only [sortInsert]
      rw [if_neg hle]
      have hxy : taskKeyLE x y = true := (taskKeyLE_total y x).resolve_left hle
      refine List.pairwise_cons.mpr ⟨?_, h⟩
      intro a ha
      rcases List.mem_cons.mp ha with ha | ha
      · exact ha ▸ hxy
      · exact taskKeyLE_trans hxy (hy a ha)

theorem taskKeyLE_iff (a b : Task) :
    taskKeyLE a b = true ↔
      a.priority < b.priority ∨ (a.priority = b.priority ∧ a.created_at ≤ b.created_at) := by
  simp only [taskKeyLE, Bool.or_eq_true, Bool.and_eq_true, decide_eq_true_eq]

theorem depsCompleted_iff (tasks : List (Nat × Task)) (t : Task) :
    depsCompleted tasks t = true ↔
      ∀ dep ∈ t.dependencies, ∀ d, dictGet? tasks dep = some d →
        d.status = TaskStatus.completed := by
  simp only [depsCompleted, List.all_eq_true]
  constructor
  · intro h dep hdep d hd
    have := h dep hdep
    rw [hd] at this
    simpa using this
  · intro h dep hdep
    cases hd : dictGet? tasks dep with
    | none => simp
    | some d => simpa using h dep hdep d hd

theorem mem_get_ready_tasks (dag : TaskDAG) (t : Task) :
    t ∈ get_ready_tasks dag ↔
      t ∈ dag.tasks.map Prod.snd ∧ t.status = TaskStatus.pending ∧
        depsCompleted dag.tasks t = true := by
  unfold get_ready_tasks
  rw [(stableSortTasks_perm _).mem_iff, List.mem_filter]
  simp [and_assoc]

theorem stableSortTasks_pairwise (l : List Task) :
    (stableSortTasks l).Pairwise fun a b => taskKeyLE a b = true := by
  suffices h : ∀ acc : List Task, (acc.Pairwise fun a b => taskKeyLE a b = true) →
      (l.foldl (fun acc x => sortInsert x acc) acc).Pairwise fun a b => taskKeyLE a b = true by
    exact h [] (by simp)
  induction l with
  | nil =>
    intro acc hacc
    simpa using hacc
  | cons y ys ih =>
    intro acc hacc
    simp only [List.foldl_cons]
    exact ih (sortInsert y acc) (sortInsert_pairwise y acc hacc)

/-! ## Generic list, sum and transitive-closure helpers -/

theorem transGenHead {rel : Nat → Nat → Prop} {u v : Nat}
    (h : Relation.TransGen rel u v) : ∃ w, rel u w := by
  induction h with
  | single h => exact ⟨_, h⟩
  | tail _ _ ih => exact ih

theorem transGenLast {rel : Nat → Nat → Prop} {u v : Nat}
    (h : Relation.TransGen rel u v) : ∃ w, rel w v := by
  induction h with
  | single h => exact ⟨_, h⟩
  | tail _ h₂ _ => exact ⟨_, h₂⟩

theorem listSumMapAdd (l : List Nat) (f g : Nat → Nat) :
    (l.map fun x => f x + g x).sum = (l.map f).sum + (l.map g).sum := by
  induction l with
  | nil => rfl
  | cons a rest ih =>
    simp only [List.map_cons, List.sum_cons, ih]
    omega

theorem sumToFinsetLe (l : List Nat) (f : Nat → Nat) :
    (∑ u ∈ l.toFinset, f u) ≤ (l.map f).sum := by
  induction l with
  | nil => simp
  | cons a rest ih =>
    rw [List.toFinset_cons]
    by_cases ha : a ∈ rest.toFinset
    · rw [Finset.insert_eq_self.mpr ha]
      simp only [List.map_cons, List.sum_cons]
      omega
    · rw [Finset.sum_insert ha]
      simp only [List.map_cons, List.sum_cons]
      omega

theorem memMapSumLe (l : List Nat) (f : Nat → Nat) {x : Nat} (h : x ∈ l) :
    f x ≤ (l.map f).sum := by
  induction l with
  | nil => simp at h
  | cons a rest ih =>
    rcases List.mem_cons.mp h with h | h
    · subst h
      simp only [List.map_cons, List.sum_cons]
      omega
    · have := ih h
      simp only [List.map_cons, List.sum_cons]
      omega

theorem nodupSubsetLength {l₁ l₂ : List Nat} (h₁ : l₁.Nodup) (hsub : ∀ x ∈ l₁, x ∈ l₂) :
    l₁.length ≤ l₂.length := by
  calc l₁.length = l₁.toFinset.card := (List.toFinset_card_of_nodup h₁).symm
    _ ≤ l₂.toFinset.card := Finset.card_le_card fun x hx =>
        List.mem_toFinset.mpr (hsub x (List.mem_toFinset.mp hx))
    _ ≤ l₂.length := l₂.toFinset_card_le

theorem countSumOne {S : List Nat} (hS : S.Nodup) {x : Nat} (hx : x ∈ S) :
    (S.map fun s => if x = s then 1 else 0).sum = 1 := by
  induction S with
  | nil => simp at hx
  | cons a rest ih =>
    rw [List.nodup_cons] at hS
    rcases List.mem_cons.mp hx with h | h
    · subst h
      have hz : (rest.map fun s => if x = s then 1 else 0).sum = 0 := by
        rw [List.sum_eq_zero_iff]
        intro y hy
        rcases List.mem_map.mp hy with ⟨s, hs, hsy⟩
        have : x ≠ s := fun he => hS.1 (he ▸ hs)
        simp [this] at hsy
        omega
      simp [hz]
    · have hxa : x ≠ a := fun he => hS.1 (he ▸ h)
      simp only [List.map_cons, List.sum_cons, if_neg hxa]
      rw [ih hS.2 h]

theorem sumCountsEqLength {S : List Nat} (hS : S.Nodup) (l : List Nat)
    (hsub : ∀ x ∈ l, x ∈ S) : (S.map fun s => l.count s).sum = l.length := by
  induction l with
  | nil => simp
  | cons x rest ih =>
    have hx : x ∈ S := hsub x (List.mem_cons_self x rest)
    have hrest : ∀ y ∈ rest, y ∈ S := fun y hy => hsub y (List.mem_cons.mpr (Or.inr hy))
    have hsplit : (S.map fun s => (x :: rest).count s).sum =
        (S.map fun s => rest.count s).sum + (S.map fun s => if x = s then 1 else 0).sum := by
      rw [← listSumMapAdd]
      refine congrArg List.sum (List.map_congr_left ?_)
      intro s _
      by_cases hxs : x = s
      · subst hxs
        simp [List.count_cons]
      · have hsx : s ≠ x := fun he => hxs he.symm
        simp [List.count_cons, hxs, hsx]
    rw [hsplit, ih hrest, countSumOne hS hx]
    simp

theorem cycleOfAllPred {rel : Nat → Nat → Prop} (S : Finset Nat) (hne : S.Nonempty)
    (h : ∀ k ∈ S, ∃ s ∈ S, rel s k) : ∃ u ∈ S, Relation.TransGen rel u u := by
  classical
  obtain ⟨x₀, hx₀⟩ := hne
  have hstep : ∀ k, ∃ s, k ∈ S → s ∈ S ∧ rel s k := by
    intro k
    by_cases hk : k ∈ S
    · obtain ⟨s, hs, hrel⟩ := h k hk
      exact ⟨s, fun _ => ⟨hs, hrel⟩⟩
    · exact ⟨x₀, fun hk' => absurd hk' hk⟩
  choose g hg using hstep
  set seq : Nat → Nat := fun n => g^[n] x₀ with hseq
  have hmemS : ∀ n, seq n ∈ S := by
    intro n
    induction n with
    | zero => exact hx₀
    | succ m ih =>
      have : seq (m + 1) = g (seq m) := by
        rw [hseq]
        simp [Function.iterate_succ_apply']
      rw [this]
      exact (hg (seq m) ih).1
  have hrel : ∀ n, rel (seq (n + 1)) (seq n) := by
    intro n
    have : seq (n + 1) = g (seq n) := by
      rw [hseq]
      simp [Function.iterate_succ_apply']
    rw [this]
    exact (hg (seq n) (hmemS n)).2
  have hchain : ∀ m n, Relation.TransGen rel (seq (m + n + 1)) (seq m) := by
    intro m n
    induction n with
    | zero => exact Relation.TransGen.single (hrel m)
    | succ p ih =>
      have h2 : rel (seq (m + p + 2)) (seq (m + p + 1)) := hrel (m + p + 1)
      have h3 : Relation.TransGen rel (seq (m + p + 2)) (seq m) :=
        Relation.TransGen.head h2 ih
      have : m + (p + 1) + 1 = m + p + 2 := by omega
      rw [this]
      exact h3
  have hmaps : ∀ n ∈ Finset.range (S.card + 1), seq n ∈ S := fun n _ => hmemS n
  have hcard : S.card < (Finset.range (S.card + 1)).card := by
    simp
  obtain ⟨i, hi, j, hj, hij, hheq⟩ :=
    Finset.exists_ne_map_eq_of_card_lt_of_maps_to hcard hmaps
  rcases Nat.lt_or_ge i j with hlt | hge
  · refine ⟨seq i, hmemS i, ?_⟩
    have h1 : Relation.TransGen rel (seq (i + (j - i - 1) + 1)) (seq i) :=
      hchain i (j - i - 1)
    have h2 : i + (j - i - 1) + 1 = j := by omega
    rw [h2] at h1
    rw [← hheq] at h1
    exact h1
  · have hlt : j < i := by
      rcases Nat.lt_or_ge j i with h | h
      · exact h
      · omega
    refine ⟨seq j, hmemS j, ?_⟩
    have h1 : Relation.TransGen rel (seq (j + (i - j - 1) + 1)) (seq j) :=
      hchain j (i - j - 1)
    have h2 : j + (i - j - 1) + 1 = i := by omega
    rw [h2] at h1
    rw [hheq] at h1
    exact h1

/-! ## Soundness of `_has_cycle`: a reported cycle is a real edge cycle -/

theorem pathChain_reach (adj : List (Nat × List Nat)) :
    ∀ (path : List Nat) (p0 : Nat), pathChain adj (p0 :: path) →
      ∀ v ∈ p0 :: path, v = p0 ∨ Relation.TransGen (edgeRel adj) v p0 := by
  intro path
  induction path with
  | nil =>
    intro p0 _ v hv
    left
    simpa using hv
  | cons p1 rest ih =>
    intro p0 hch v hv
    have hch' : edgeRel adj p1 p0 ∧ pathChain adj (p1 :: rest) := hch
    rcases List.mem_cons.mp hv with h | h
    · left
      exact h
    · right
      rcases ih p1 hch'.2 v h with h' | h'
      · subst h'
        exact Relation.TransGen.single hch'.1
      · exact h'.tail hch'.1

theorem unseenWeight_split (adj : List (Nat × List Nat)) (univ visited : List Nat) {v : Nat}
    (hv : v ∈ univ) (hnv : v ∉ visited) :
    unseenWeight adj univ visited =
      nodeWeight adj v + unseenWeight adj univ (v :: visited) := by
  unfold unseenWeight
  have hset : univ.toFinset.filter (fun u => u ∉ visited) =
      insert v (univ.toFinset.filter (fun u => u ∉ (v :: visited))) := by
    ext u
    simp only [Finset.mem_filter, Finset.mem_insert, List.mem_toFinset, List.mem_cons]
    constructor
    · rintro ⟨hu, hnu⟩
      by_cases huv : u = v
      · exact Or.inl huv
      · exact Or.inr ⟨hu, fun h => h.elim huv hnu⟩
    · rintro (h | ⟨hu, hnu⟩)
      · subst h
        exact ⟨hv, hnv⟩
      · exact ⟨hu, fun h => hnu (Or.inr h)⟩
  have hvnot : v ∉ univ.toFinset.filter (fun u => u ∉ (v :: visited)) := by
    simp
  rw [hset, Finset.sum_insert hvnot]

theorem unseenWeight_mono (adj : List (Nat × List Nat)) (univ : List Nat)
    {vis₁ vis₂ : List Nat} (h : ∀ x ∈ vis₁, x ∈ vis₂) :
    unseenWeight adj univ vis₂ ≤ unseenWeight adj univ vis₁ := by
  unfold unseenWeight
  apply Finset.sum_le_sum_of_subset
  intro u hu
  simp only [Finset.mem_filter] at hu ⊢
  exact ⟨hu.1, fun hc => hu.2 (h u hc)⟩

theorem dfsList_visited_mono (adj : List (Nat × List Nat)) :
    ∀ (fuel : Nat) (l visited path : List Nat),
      ∀ x ∈ visited, x ∈ (dfsList adj fuel l visited path).1 := by
  intro fuel
  induction fuel with
  | zero =>
    intro l visited path x hx
    cases l with
    | nil => simpa [dfsList] using hx
    | cons v vs => simpa [dfsList] using hx
  | succ fuel ih =>
    intro l visited path x hx
    cases l with
    | nil => simpa [dfsList] using hx
    | cons v vs =>
      simp only [dfsList]
      by_cases hv : v ∈ visited
      · rw [if_pos hv]
        by_cases hp : v ∈ path
        · rw [if_pos hp]
          exact hx
        · rw [if_neg hp]
          exact ih vs visited path x hx
      · rw [if_neg hv]
        have hx' : x ∈ v :: visited := List.mem_cons.mpr (Or.inr hx)
        have h1 := ih (dlGet adj v) (v :: visited) (v :: path) x hx'
        cases hinner : dfsList adj fuel (dlGet adj v) (v :: visited) (v :: path) with
        | mk visited' b =>
          rw [hinner] at h1
          cases b with
          | true =>
            simpa using h1
          | false =>
            exact ih vs visited' path x h1

theorem dfsList_sound (adj : List (Nat × List Nat)) (univ : List Nat)
    (hcl : ∀ k, ∀ w ∈ dlGet adj k, w ∈ univ) :
    ∀ (fuel : Nat) (l visited rest : List Nat) (p0 : Nat),
      (∀ w ∈ l, w ∈ univ) →
      (∀ w ∈ l, edgeRel adj p0 w) →
      pathChain adj (p0 :: rest) →
      l.length + unseenWeight adj univ visited ≤ fuel →
      (dfsList adj fuel l visited (p0 :: rest)).2 = true →
      ∃ u, Relation.TransGen (edgeRel adj) u u := by
  intro fuel
  induction fuel with
  | zero =>
    intro l visited rest p0 _ _ _ hfuel hres
    cases l with
    | nil => simp [dfsList] at hres
    | cons v vs =>
      simp only [List.length_cons] at hfuel
      omega
  | succ fuel ih =>
    intro l visited rest p0 hl hedge hchain hfuel hres
    cases l with
    | nil => simp [dfsList] at hres
    | cons v vs =>
      simp only [dfsList] at hres
      by_cases hv : v ∈ visited
      · rw [if_pos hv] at hres
        by_cases hp : v ∈ p0 :: rest
        · rcases pathChain_reach adj rest p0 hchain v hp with h | h
          · subst h
            exact ⟨v, Relation.TransGen.single (hedge v (List.mem_cons_self v vs))⟩
          · exact ⟨v, h.tail (hedge v (List.mem_cons_self v vs))⟩
        · rw [if_neg hp] at hres
          refine ih vs visited rest p0 (fun w hw => hl w (List.mem_cons.mpr (Or.inr hw)))
            (fun w hw => hedge w (List.mem_cons.mpr (Or.inr hw))) hchain ?_ hres
          simp only [List.length_cons] at hfuel
          omega
      · rw [if_neg hv] at hres
        have hvu : v ∈ univ := hl v (List.mem_cons_self v vs)
        have hsplit := unseenWeight_split adj univ visited hvu hv
        have hnw : nodeWeight adj v = 1 + (dlGet adj v).length := rfl
        cases hinner : dfsList adj fuel (dlGet adj v) (v :: visited) (v :: p0 :: rest) with
        | mk visited' b =>
          rw [hinner] at hres
          cases b with
          | true =>
            refine ih (dlGet adj v) (v :: visited) (p0 :: rest) v (hcl v)
              (fun w hw => hw) ⟨hedge v (List.mem_cons_self v vs), hchain⟩ ?_ ?_
            · simp only [List.length_cons] at hfuel
              omega
            · rw [hinner]
          | false =>
            have hmono : ∀ x ∈ v :: visited, x ∈ visited' := by
              intro x hx
              have := dfsList_visited_mono adj fuel (dlGet adj v) (v :: visited)
                (v :: p0 :: rest) x hx
              rw [hinner] at this
              exact this
            have hW : unseenWeight adj univ visited' ≤
                unseenWeight adj univ (v :: visited) :=
              unseenWeight_mono adj univ hmono
            refine ih vs visited' rest p0 (fun w hw => hl w (List.mem_cons.mpr (Or.inr hw)))
              (fun w hw => hedge w (List.mem_cons.mpr (Or.inr hw))) hchain ?_ hres
            simp only [List.length_cons] at hfuel
            omega

theorem hasCycleLoop_sound (adj : List (Nat × List Nat)) (univ : List Nat)
    (hcl : ∀ k, ∀ w ∈ dlGet adj k, w ∈ univ) (fuel : Nat)
    (hfuel : ∀ t ∈ univ, (dlGet adj t).length + unseenWeight adj univ [] ≤ fuel) :
    ∀ (ts visited : List Nat), (∀ t ∈ ts, t ∈ univ) →
      hasCycleLoop adj fuel ts visited = true →
      ∃ u, Relation.TransGen (edgeRel adj) u u := by
  intro ts
  induction ts with
  | nil =>
    intro visited _ h
    simp [hasCycleLoop] at h
  | cons t ts ih =>
    intro visited hts h
    simp only [hasCycleLoop] at h
    by_cases hv : t ∈ visited
    · rw [if_pos hv] at h
      exact ih visited (fun x hx => hts x (List.mem_cons.mpr (Or.inr hx))) h
    · rw [if_neg hv] at h
      cases hinner : dfsList adj fuel (dlGet adj t) (t :: visited) [t] with
      | mk visited' b =>
        rw [hinner] at h
        cases b with
        | true =>
          refine dfsList_sound adj univ hcl fuel (dlGet adj t) (t :: visited) [] t
            (hcl t) (fun w hw => hw) trivial ?_ ?_
          · have h1 : unseenWeight adj univ (t :: visited) ≤ unseenWeight adj univ [] :=
              unseenWeight_mono adj univ (by simp)
            have h2 := hfuel t (hts t (List.mem_cons_self t ts))
            omega
          · rw [hinner]
        | false =>
          exact ih visited' (fun x hx => hts x (List.mem_cons.mpr (Or.inr hx))) h

theorem has_cycle_sound {dag : TaskDAG} (h : has_cycle dag = true) :
    ∃ u, Relation.TransGen (edgeRel dag.adjacency_list) u u := by
  have hcl : ∀ k, ∀ w ∈ dlGet dag.adjacency_list k, w ∈ dagNodes dag := by
    intro k w hw
    unfold dlGet at hw
    cases hk : dictGet? dag.adjacency_list k with
    | none =>
      rw [hk] at hw
      simp at hw
    | some l =>
      rw [hk] at hw
      simp only [Option.getD_some] at hw
      have hmem : l ∈ dag.adjacency_list.map Prod.snd :=
        List.mem_map.mpr ⟨(k, l), mem_of_dictGet? hk, rfl⟩
      have : w ∈ (dag.adjacency_list.map Prod.snd).flatten :=
        List.mem_flatten.mpr ⟨l, hmem, hw⟩
      unfold dagNodes
      simp only [List.mem_append]
      exact Or.inr this
  have hone : ((dagNodes dag).map fun _ => (1 : Nat)).sum = (dagNodes dag).length := by
    induction dagNodes dag with
    | nil => rfl
    | cons a rest ih =>
      simp [ih]
      omega
  have hfuel : ∀ t ∈ dagNodes dag,
      (dlGet dag.adjacency_list t).length +
        unseenWeight dag.adjacency_list (dagNodes dag) [] ≤ dfsFuel dag := by
    intro t ht
    have hW : unseenWeight dag.adjacency_list (dagNodes dag) [] ≤
        ((dagNodes dag).map fun u => nodeWeight dag.adjacency_list u).sum := by
      unfold unseenWeight
      have hfilter : (dagNodes dag).toFinset.filter (fun u => u ∉ ([] : List Nat)) =
          (dagNodes dag).toFinset := by
        apply Finset.filter_true_of_mem
        intro u _
        simp
      rw [hfilter]
      exact sumToFinsetLe (dagNodes dag) (nodeWeight dag.adjacency_list)
    have hsum : ((dagNodes dag).map fun u => nodeWeight dag.adjacency_list u).sum =
        (dagNodes dag).length +
          ((dagNodes dag).map fun u => (dlGet dag.adjacency_list u).length).sum := by
      unfold nodeWeight
      rw [listSumMapAdd (dagNodes dag) (fun _ => 1)
        (fun u => (dlGet dag.adjacency_list u).length), hone]
    have hdeg : (dlGet dag.adjacency_list t).length ≤
        ((dagNodes dag).map fun u => (dlGet dag.adjacency_list u).length).sum :=
      memMapSumLe (dagNodes dag) (fun u => (dlGet dag.adjacency_list u).length) ht
    unfold dfsFuel
    omega
  exact hasCycleLoop_sound dag.adjacency_list (dagNodes dag) hcl (dfsFuel dag) hfuel
    (dag.tasks.map Prod.fst) []
    (fun t ht => by
      unfold dagNodes
      simp only [List.mem_append]
      exact Or.inl (Or.inl ht)) h

/-! ## Structure of the graph derived from a sequence of insertions -/

theorem dictGet?_eq_none_of_not_mem {α : Type} {d : List (Nat × α)} {k : Nat}
    (h : k ∉ d.map Prod.fst) : dictGet? d k = none := by
  induction d with
  | nil => rfl
  | cons p rest ih =>
    obtain ⟨a, b⟩ := p
    rw [List.map_cons] at h
    have ha : a ≠ k := fun he => h (List.mem_cons.mpr (Or.inl he.symm))
    have hrest : k ∉ rest.map Prod.fst := fun hm => h (List.mem_cons.mpr (Or.inr hm))
    simp [dictGet?, ha, ih hrest]

theorem dictSet_append_of_not_mem {α : Type} {d : List (Nat × α)} {k : Nat} (v : α)
    (h : k ∉ d.map Prod.fst) : dictSet d k v = d ++ [(k, v)] := by
  induction d with
  | nil => rfl
  | cons p rest ih =>
    obtain ⟨a, b⟩ := p
    rw [List.map_cons] at h
    have ha : a ≠ k := fun he => h (List.mem_cons.mpr (Or.inl he.symm))
    have hrest : k ∉ rest.map Prod.fst := fun hm => h (List.mem_cons.mpr (Or.inr hm))
    simp [dictSet, ha, ih hrest]

theorem dictGet?_append_last {α : Type} {d : List (Nat × α)} {k : Nat} (v : α)
    (h : k ∉ d.map Prod.fst) : dictGet? (d ++ [(k, v)]) k = some v := by
  induction d with
  | nil => simp [dictGet?]
  | cons p rest ih =>
    obtain ⟨a, b⟩ := p
    rw [List.map_cons] at h
    have ha : a ≠ k := fun he => h (List.mem_cons.mpr (Or.inl he.symm))
    have hrest : k ∉ rest.map Prod.fst := fun hm => h (List.mem_cons.mpr (Or.inr hm))
    simp [dictGet?, ha, ih hrest]

theorem dictSet_append_last {α : Type} {d : List (Nat × α)} {k : Nat} (a v : α)
    (h : k ∉ d.map Prod.fst) : dictSet (d ++ [(k, a)]) k v = d ++ [(k, v)] := by
  induction d with
  | nil => simp [dictSet]
  | cons p rest ih =>
    obtain ⟨x, b⟩ := p
    rw [List.map_cons] at h
    have hx : x ≠ k := fun he => h (List.mem_cons.mpr (Or.inl he.symm))
    have hrest : k ∉ rest.map Prod.fst := fun hm => h (List.mem_cons.mpr (Or.inr hm))
    simp [dictSet, hx, ih hrest]

theorem foldDlAppend_acc {d : List (Nat × List Nat)} {k : Nat}
    (h : k ∉ d.map Prod.fst) :
    ∀ (deps acc : List Nat),
      deps.foldl (fun r dep => dlAppend r k dep) (d ++ [(k, acc)]) =
        d ++ [(k, acc ++ deps)] := by
  intro deps
  induction deps with
  | nil =>
    intro acc
    simp
  | cons x rest ih =>
    intro acc
    have hstep : dlAppend (d ++ [(k, acc)]) k x = d ++ [(k, acc ++ [x])] := by
      unfold dlAppend dlGet
      rw [dictGet?_append_last acc h]
      simp only [Option.getD_some]
      exact dictSet_append_last acc (acc ++ [x]) h
    simp only [List.foldl_cons, hstep, ih (acc ++ [x])]
    simp

theorem foldDlAppend_fresh {d : List (Nat × List Nat)} {k : Nat}
    (h : k ∉ d.map Prod.fst) (deps : List Nat) :
    deps.foldl (fun r dep => dlAppend r k dep) d =
      if deps.isEmpty then d else d ++ [(k, deps)] := by
  cases deps with
  | nil => rfl
  | cons x rest =>
    have hstep : dlAppend d k x = d ++ [(k, [x])] := by
      unfold dlAppend dlGet
      rw [dictGet?_eq_none_of_not_mem h]
      simp only [Option.getD_none, List.nil_append]
      exact dictSet_append_of_not_mem [x] h
    simp only [List.foldl_cons, hstep, List.isEmpty_cons]
    rw [foldDlAppend_acc h rest [x]]
    simp

theorem foldDlAppend_multi (x : Nat) :
    ∀ (deps : List Nat) (a : List (Nat × List Nat)) (j : Nat),
      dlGet (deps.foldl (fun acc dep => dlAppend acc dep x) a) j =
        dlGet a j ++ List.replicate (deps.count j) x := by
  intro deps
  induction deps with
  | nil =>
    intro a j
    simp
  | cons d ds ih =>
    intro a j
    simp only [List.foldl_cons]
    rw [ih (dlAppend a d x) j, dlGet_dlAppend]
    by_cases hdj : d = j
    · subst hdj
      rw [if_pos rfl]
      have hcount : (d :: ds).count d = ds.count d + 1 := by
        simp [List.count_cons]
      rw [hcount]
      have hrep : List.replicate (ds.count d + 1) x = x :: List.replicate (ds.count d) x :=
        rfl
      rw [hrep]
      simp
    · rw [if_neg hdj]
      have hcount : (d :: ds).count j = ds.count j := by
        have : j ≠ d := fun he => hdj he.symm
        simp [List.count_cons, this]
      rw [hcount]

theorem derivedDAG_append (ts : List Task) (t : Task) :
    derivedDAG (ts ++ [t]) = insertTask (derivedDAG ts) t := by
  unfold derivedDAG
  rw [List.foldl_append]
  rfl

theorem derivedDAG_tasks (ts : List Task) (hN : (ts.map Task.id).Nodup) :
    (derivedDAG ts).tasks = ts.map fun t => (t.id, t) := by
  induction ts using List.reverseRecOn with
  | nil => rfl
  | append_singleton l t ih =>
    rw [List.map_append, List.nodup_append] at hN
    rw [derivedDAG_append]
    have hl := ih hN.1
    show dictSet (derivedDAG l).tasks t.id t = (l ++ [t]).map fun t => (t.id, t)
    rw [hl]
    have hkeys : ((l.map fun t => (t.id, t)).map Prod.fst) = l.map Task.id := by
      simp
    have htid : t.id ∉ (l.map fun t => (t.id, t)).map Prod.fst := by
      rw [hkeys]
      intro hmem
      exact hN.2.2 hmem (by simp)
    rw [dictSet_append_of_not_mem t htid]
    simp

theorem derivedDAG_radj (ts : List Task) (hN : (ts.map Task.id).Nodup) :
    (derivedDAG ts).reverse_adjacency =
      (ts.filter fun t => !t.dependencies.isEmpty).map fun t => (t.id, t.dependencies) := by
  induction ts using List.reverseRecOn with
  | nil => rfl
  | append_singleton l t ih =>
    rw [List.map_append, List.nodup_append] at hN
    rw [derivedDAG_append]
    have hl := ih hN.1
    show t.dependencies.foldl (fun r dep => dlAppend r t.id dep)
        (derivedDAG l).reverse_adjacency = _
    rw [hl]
    have hkeys : (((l.filter fun t => !t.dependencies.isEmpty).map
        fun t => (t.id, t.dependencies)).map Prod.fst) =
        (l.filter fun t => !t.dependencies.isEmpty).map Task.id := by
      simp
    have htid : t.id ∉ ((l.filter fun t => !t.dependencies.isEmpty).map
        fun t => (t.id, t.dependencies)).map Prod.fst := by
      rw [hkeys]
      intro hmem
      rcases List.mem_map.mp hmem with ⟨u, hu, huid⟩
      have humem : u ∈ l := List.mem_of_mem_filter hu
      have : t.id ∈ l.map Task.id := List.mem_map.mpr ⟨u, humem, huid⟩
      exact hN.2.2 this (by simp)
    rw [foldDlAppend_fresh htid t.dependencies]
    rw [List.filter_append, List.map_append]
    cases he : t.dependencies.isEmpty with
    | true =>
      simp [he, List.isEmpty_iff.mp he]
    | false =>
      simp [he]

theorem derivedDAG_adj (ts : List Task) (k : Nat) :
    dlGet (derivedDAG ts).adjacency_list k = specAdjAt ts k := by
  induction ts using List.reverseRecOn with
  | nil => rfl
  | append_singleton l t ih =>
    rw [derivedDAG_append]
    show dlGet (t.dependencies.foldl (fun a dep => dlAppend a dep t.id)
        (derivedDAG l).adjacency_list) k = _
    rw [foldDlAppend_multi t.id t.dependencies (derivedDAG l).adjacency_list k, ih]
    unfold specAdjAt
    simp

theorem specAdjAt_mem (ts : List Task) (k v : Nat) :
    v ∈ specAdjAt ts k ↔ ∃ t ∈ ts, t.id = v ∧ k ∈ t.dependencies := by
  unfold specAdjAt
  rw [List.mem_flatten]
  constructor
  · rintro ⟨l, hl, hv⟩
    rcases List.mem_map.mp hl with ⟨t, ht, hteq⟩
    rw [← hteq] at hv
    rcases List.mem_replicate.mp hv with ⟨hne, hveq⟩
    refine ⟨t, ht, hveq.symm, ?_⟩
    by_contra hk
    rw [List.count_eq_zero.mpr hk] at hne
    exact hne rfl
  · rintro ⟨t, ht, hid, hk⟩
    refine ⟨List.replicate (t.dependencies.count k) t.id, List.mem_map.mpr ⟨t, ht, rfl⟩, ?_⟩
    rw [List.mem_replicate]
    exact ⟨by
      intro hz
      rw [List.count_eq_zero] at hz
      exact hz hk, hid.symm⟩

theorem derived_edge_iff (ts : List Task) (u v : Nat) :
    edgeRel (derivedDAG ts).adjacency_list u v ↔ depEdge ts u v := by
  unfold edgeRel depEdge
  rw [derivedDAG_adj, specAdjAt_mem]

/-! ## Kahn's algorithm: characterising one dequeue's neighbour pass -/

theorem count_cons_self_nat (a : Nat) (l : List Nat) : (a :: l).count a = l.count a + 1 := by
  simp [List.count_cons]

theorem count_cons_ne_nat {a b : Nat} (l : List Nat) (h : b ≠ a) :
    (a :: l).count b = l.count b := by
  simp [List.count_cons, h]

theorem kahnVisitFold_spec :
    ∀ (vs : List Nat) (indeg : List (Nat × Int)) (q : List Nat),
      ((vs.foldl kahnVisit (indeg, q)).1.map Prod.fst = indeg.map Prod.fst)
      ∧ (∀ k, dictGet? (vs.foldl kahnVisit (indeg, q)).1 k =
          (dictGet? indeg k).map fun d => d - (vs.count k : Int))
      ∧ ∃ app, (vs.foldl kahnVisit (indeg, q)).2 = q ++ app ∧ app.Nodup
          ∧ (∀ k, k ∈ app ↔
              ∃ d, dictGet? indeg k = some d ∧ 1 ≤ d ∧ d ≤ (vs.count k : Int)) := by
  intro vs
  induction vs with
  | nil =>
    intro indeg q
    refine ⟨rfl, ?_, [], by simp, List.nodup_nil, ?_⟩
    · intro k
      cases hk : dictGet? indeg k <;> simp [hk]
    · intro k
      simp only [List.not_mem_nil, false_iff]
      rintro ⟨d, _, h1, h2⟩
      simp only [List.count_nil, Nat.cast_zero] at h2
      omega
  | cons v vs' ih =>
    intro indeg q
    simp only [List.foldl_cons]
    cases hv : dictGet? indeg v with
    | none =>
      have hstep : kahnVisit (indeg, q) v = (indeg, q) := by
        simp [kahnVisit, hv]
      rw [hstep]
      obtain ⟨hkeys, hpt, app, happ, hnd, hiff⟩ := ih indeg q
      refine ⟨hkeys, ?_, app, happ, hnd, ?_⟩
      · intro k
        rw [hpt k]
        by_cases hkv : k = v
        · subst hkv
          rw [hv]
          rfl
        · rw [count_cons_ne_nat vs' hkv]
      · intro k
        rw [hiff k]
        by_cases hkv : k = v
        · subst hkv
          constructor <;>
            (rintro ⟨d, hd, h1, h2⟩
             rw [hv] at hd
             cases hd)
        · rw [count_cons_ne_nat vs' hkv]
    | some d =>
      have hsome : (dictGet? indeg v).isSome := by
        rw [hv]
        rfl
      have hkeys2 : (dictSet indeg v (d - 1)).map Prod.fst = indeg.map Prod.fst :=
        dictSet_map_fst_of_get (d - 1) hsome
      have hptstep : ∀ k, dictGet? (dictSet indeg v (d - 1)) k =
          if v = k then some (d - 1) else dictGet? indeg k := fun k =>
        dictGet?_dictSet indeg v (d - 1) k
      by_cases hd1 : d - 1 = 0
      · have hstep : kahnVisit (indeg, q) v = (dictSet indeg v (d - 1), q ++ [v]) := by
          simp [kahnVisit, hv, hd1]
        rw [hstep]
        obtain ⟨hkeys, hpt, app', happ', hnd', hiff'⟩ := ih (dictSet indeg v (d - 1)) (q ++ [v])
        refine ⟨hkeys.trans hkeys2, ?_, v :: app', ?_, ?_, ?_⟩
        · intro k
          rw [hpt k, hptstep k]
          by_cases hkv : v = k
          · subst hkv
            rw [if_pos rfl, hv]
            simp only [Option.map_some']
            congr 1
            rw [count_cons_self_nat]
            push_cast
            ring
          · rw [if_neg hkv]
            rw [count_cons_ne_nat vs' fun he => hkv he.symm]
        · rw [happ']
          simp
        · refine List.nodup_cons.mpr ⟨?_, hnd'⟩
          intro hmem
          rcases (hiff' v).mp hmem with ⟨d', hd', h1, _⟩
          rw [hptstep v, if_pos rfl] at hd'
          cases hd'
          omega
        · intro k
          constructor
          · intro hmem
            rcases List.mem_cons.mp hmem with h | h
            · subst h
              refine ⟨d, hv, by omega, ?_⟩
              rw [count_cons_self_nat]
              push_cast
              omega
            · rcases (hiff' k).mp h with ⟨d', hd', h1, h2⟩
              rw [hptstep k] at hd'
              by_cases hkv : v = k
              · rw [if_pos hkv] at hd'
                cases hd'
                omega
              · rw [if_neg hkv] at hd'
                refine ⟨d', hd', h1, ?_⟩
                rw [count_cons_ne_nat vs' fun he => hkv he.symm]
                exact h2
          · rintro ⟨d', hd', h1, h2⟩
            by_cases hkv : k = v
            · subst hkv
              exact List.mem_cons_self k app'
            · refine List.mem_cons.mpr (Or.inr ((hiff' k).mpr ⟨d', ?_, h1, ?_⟩))
              · rw [hptstep k, if_neg fun he => hkv he.symm]
                exact hd'
              · rw [count_cons_ne_nat vs' hkv] at h2
                exact h2
      · have hstep : kahnVisit (indeg, q) v = (dictSet indeg v (d - 1), q) := by
          simp [kahnVisit, hv, hd1]
        rw [hstep]
        obtain ⟨hkeys, hpt, app', happ', hnd', hiff'⟩ := ih (dictSet indeg v (d - 1)) q
        refine ⟨hkeys.trans hkeys2, ?_, app', happ', hnd', ?_⟩
        · intro k
          rw [hpt k, hptstep k]
          by_cases hkv : v = k
          · subst hkv
            rw [if_pos rfl, hv]
            simp only [Option.map_some']
            congr 1
            rw [count_cons_self_nat]
            push_cast
            ring
          · rw [if_neg hkv]
            rw [count_cons_ne_nat vs' fun he => hkv he.symm]
        · intro k
          rw [hiff' k, hptstep k]
          by_cases hkv : v = k
          · rw [if_pos hkv]
            subst hkv
            constructor
            · rintro ⟨d', hd', h1, h2⟩
              cases hd'
              refine ⟨d, hv, by omega, ?_⟩
              rw [count_cons_self_nat]
              push_cast
              omega
            · rintro ⟨d', hd', h1, h2⟩
              rw [hv] at hd'
              cases hd'
              rw [count_cons_self_nat] at h2
              push_cast at h2
              exact ⟨d - 1, rfl, by omega, by omega⟩
          · rw [if_neg hkv]
            rw [count_cons_ne_nat vs' fun he => hkv he.symm]

/-! ## Kahn's algorithm: the worklist-loop invariant -/

theorem popCount_append_one (adj : List (Nat × List Nat)) (result : List Nat) (u k : Nat) :
    popCountNat adj (result ++ [u]) k = popCountNat adj result k + (dlGet adj u).count k := by
  unfold popCountNat
  simp

theorem popCount_le_inDeg (adj : List (Nat × List Nat)) {KS R : List Nat} (hKS : KS.Nodup)
    (hR : R.Nodup) (hsub : ∀ x ∈ R, x ∈ KS) (k : Nat) :
    popCountNat adj R k ≤ inDegNat adj KS k := by
  unfold popCountNat inDegNat
  rw [← List.sum_toFinset _ hR, ← List.sum_toFinset _ hKS]
  apply Finset.sum_le_sum_of_subset
  intro x hx
  exact List.mem_toFinset.mpr (hsub x (List.mem_toFinset.mp hx))

theorem sourcesPopped (adj : List (Nat × List Nat)) {KS R : List Nat} (hKS : KS.Nodup)
    (hR : R.Nodup) (hsub : ∀ x ∈ R, x ∈ KS) {k : Nat}
    (heq : popCountNat adj R k = inDegNat adj KS k) :
    ∀ s ∈ KS, k ∈ dlGet adj s → s ∈ R := by
  unfold popCountNat inDegNat at heq
  rw [← List.sum_toFinset _ hR, ← List.sum_toFinset _ hKS] at heq
  have hsubF : R.toFinset ⊆ KS.toFinset := fun x hx =>
    List.mem_toFinset.mpr (hsub x (List.mem_toFinset.mp hx))
  have hsd : ∑ x ∈ KS.toFinset \ R.toFinset, (dlGet adj x).count k
      + ∑ x ∈ R.toFinset, (dlGet adj x).count k
      = ∑ x ∈ KS.toFinset, (dlGet adj x).count k :=
    Finset.sum_sdiff hsubF
  have hzero : ∑ x ∈ KS.toFinset \ R.toFinset, (dlGet adj x).count k = 0 := by
    omega
  intro s hs hk
  by_contra hsR
  have hmem : s ∈ KS.toFinset \ R.toFinset := by
    rw [Finset.mem_sdiff]
    exact ⟨List.mem_toFinset.mpr hs, fun h => hsR (List.mem_toFinset.mp h)⟩
  have hzs := (Finset.sum_eq_zero_iff.mp hzero) s hmem
  rw [List.count_eq_zero] at hzs
  exact hzs hk

theorem sourceUnpopped (adj : List (Nat × List Nat)) {KS R : List Nat} (hKS : KS.Nodup)
    (hR : R.Nodup) (hsub : ∀ x ∈ R, x ∈ KS) {k : Nat}
    (hlt : popCountNat adj R k < inDegNat adj KS k) :
    ∃ s ∈ KS, k ∈ dlGet adj s ∧ s ∉ R := by
  unfold popCountNat inDegNat at hlt
  rw [← List.sum_toFinset _ hR, ← List.sum_toFinset _ hKS] at hlt
  have hsubF : R.toFinset ⊆ KS.toFinset := fun x hx =>
    List.mem_toFinset.mpr (hsub x (List.mem_toFinset.mp hx))
  have hsd : ∑ x ∈ KS.toFinset \ R.toFinset, (dlGet adj x).count k
      + ∑ x ∈ R.toFinset, (dlGet adj x).count k
      = ∑ x ∈ KS.toFinset, (dlGet adj x).count k :=
    Finset.sum_sdiff hsubF
  have hpos : 0 < ∑ x ∈ KS.toFinset \ R.toFinset, (dlGet adj x).count k := by
    omega
  by_contra hcon
  push_neg at hcon
  have hall : ∀ x ∈ KS.toFinset \ R.toFinset, (dlGet adj x).count k = 0 := by
    intro x hx
    rw [Finset.mem_sdiff] at hx
    rw [List.count_eq_zero]
    intro hkx
    exact hx.2 (List.mem_toFinset.mpr
      (hcon x (List.mem_toFinset.mp hx.1) hkx))
  rw [Finset.sum_eq_zero hall] at hpos
  omega

theorem append_singleton_inj {α : Type} {l₁ l₂ : List α} {a b : α}
    (h : l₁ ++ [a] = l₂ ++ [b]) : l₁ = l₂ ∧ a = b := by
  have h' := congrArg List.reverse h
  simp only [List.reverse_append, List.reverse_singleton, List.singleton_append,
    List.cons.injEq] at h'
  exact ⟨List.reverse_inj.mp h'.2, h'.1⟩

theorem snoc_eq_append_cons {α : Type} {l : List α} {u : α} {pre : List α} {k : α}
    {post : List α} (h : l ++ [u] = pre ++ k :: post) :
    (k = u ∧ pre = l) ∨ ∃ post', l = pre ++ k :: post' := by
  induction post using List.reverseRecOn with
  | nil =>
    obtain ⟨h1, h2⟩ := append_singleton_inj h
    exact Or.inl ⟨h2.symm, h1.symm⟩
  | append_singleton post' x _ =>
    have h' : l ++ [u] = (pre ++ k :: post') ++ [x] := by
      rw [h]
      simp
    obtain ⟨h1, _⟩ := append_singleton_inj h'
    exact Or.inr ⟨post', h1⟩

theorem kahnLoop_spec (adj : List (Nat × List Nat)) (KS : List Nat) (hKS : KS.Nodup) :
    ∀ (fuel : Nat) (queue : List Nat) (indeg : List (Nat × Int)) (result : List Nat),
      indeg.map Prod.fst = KS →
      (∀ k ∈ KS, dictGet? indeg k =
        some ((inDegNat adj KS k : Int) - (popCountNat adj result k : Int))) →
      (result ++ queue).Nodup →
      (∀ x ∈ result ++ queue, x ∈ KS) →
      (∀ v ∈ result ++ queue, popCountNat adj result v = inDegNat adj KS v) →
      DepsBefore adj KS result →
      (∀ k ∈ KS, k ∉ result ++ queue →
        (popCountNat adj result k : Int) < (inDegNat adj KS k : Int)) →
      result.length + fuel = KS.length →
      (kahnLoop adj fuel queue indeg result).Nodup
      ∧ (∀ x ∈ kahnLoop adj fuel queue indeg result, x ∈ KS)
      ∧ DepsBefore adj KS (kahnLoop adj fuel queue indeg result)
      ∧ (∀ k ∈ KS, k ∉ kahnLoop adj fuel queue indeg result →
          (popCountNat adj (kahnLoop adj fuel queue indeg result) k : Int) <
            (inDegNat adj KS k : Int)) := by
  intro fuel
  induction fuel with
  | zero =>
    intro queue indeg result hkeys hdeg hnodup hsub hrdone hdb hmiss hfuel
    cases queue with
    | nil =>
      simp only [kahnLoop]
      rw [List.append_nil] at hnodup hsub hrdone
      exact ⟨hnodup, hsub, hdb, fun k hk hkr => hmiss k hk (by
        rw [List.append_nil]
        exact hkr)⟩
    | cons u qs =>
      exfalso
      have hlen := nodupSubsetLength hnodup hsub
      simp only [List.length_append, List.length_cons] at hlen
      omega
  | succ fuel ih =>
    intro queue indeg result hkeys hdeg hnodup hsub hrdone hdb hmiss hfuel
    cases queue with
    | nil =>
      simp only [kahnLoop]
      rw [List.append_nil] at hnodup hsub hrdone
      exact ⟨hnodup, hsub, hdb, fun k hk hkr => hmiss k hk (by
        rw [List.append_nil]
        exact hkr)⟩
    | cons u qs =>
      simp only [kahnLoop]
      obtain ⟨hkeys', hpt', app, happ, happnd, hiff⟩ := kahnVisitFold_spec (dlGet adj u) indeg qs
      have hassoc : result ++ u :: qs = (result ++ [u]) ++ qs := by simp
      have huKS : u ∈ KS := hsub u (by simp)
      have hu_q : u ∈ result ++ u :: qs := by simp
      have hu_done : popCountNat adj result u = inDegNat adj KS u := hrdone u hu_q
      have hr1nodup : (result ++ [u]).Nodup := by
        have hsl : (result ++ [u]).Sublist (result ++ u :: qs) := by
          apply List.Sublist.append_left
          exact List.Sublist.cons₂ u (List.nil_sublist qs)
        exact hnodup.sublist hsl
      have hr1sub : ∀ x ∈ result ++ [u], x ∈ KS := by
        intro x hx
        rcases List.mem_append.mp hx with h | h
        · exact hsub x (List.mem_append.mpr (Or.inl h))
        · rw [List.mem_singleton.mp h]
          exact huKS
      have happKS : ∀ k ∈ app, k ∈ KS := by
        intro k hk
        rcases (hiff k).mp hk with ⟨d, hd, _, _⟩
        have : k ∈ indeg.map Prod.fst :=
          List.mem_map.mpr ⟨(k, d), mem_of_dictGet? hd, rfl⟩
        rw [hkeys] at this
        exact this
      have happfresh : ∀ k ∈ app, k ∉ result ++ u :: qs := by
        intro k hk hmem
        rcases (hiff k).mp hk with ⟨d, hd, h1, _⟩
        have hkKS : k ∈ KS := happKS k hk
        rw [hdeg k hkKS] at hd
        have hdval : d = (inDegNat adj KS k : Int) - (popCountNat adj result k : Int) :=
          (Option.some.inj hd).symm
        have := hrdone k hmem
        omega
      have happdone : ∀ k ∈ app,
          popCountNat adj (result ++ [u]) k = inDegNat adj KS k := by
        intro k hk
        rcases (hiff k).mp hk with ⟨d, hd, h1, h2⟩
        have hkKS : k ∈ KS := happKS k hk
        rw [hdeg k hkKS] at hd
        have hdval : d = (inDegNat adj KS k : Int) - (popCountNat adj result k : Int) :=
          (Option.some.inj hd).symm
        have hle := popCount_le_inDeg adj hKS hr1nodup hr1sub k
        rw [popCount_append_one] at hle ⊢
        omega
      have hrdone' : ∀ v ∈ (result ++ [u]) ++ (qs ++ app),
          popCountNat adj (result ++ [u]) v = inDegNat adj KS v := by
        intro v hv
        rcases List.mem_append.mp hv with h | h
        · have hv' : v ∈ result ++ u :: qs := by
            rw [hassoc]
            exact List.mem_append.mpr (Or.inl h)
          have hold := hrdone v hv'
          have hle := popCount_le_inDeg adj hKS hr1nodup hr1sub v
          rw [popCount_append_one] at hle ⊢
          omega
        · rcases List.mem_append.mp h with h | h
          · have hv' : v ∈ result ++ u :: qs := by
              rw [hassoc]
              exact List.mem_append.mpr (Or.inr h)
            have hold := hrdone v hv'
            have hle := popCount_le_inDeg adj hKS hr1nodup hr1sub v
            rw [popCount_append_one] at hle ⊢
            omega
          · exact happdone v h
      have hnodup' : ((result ++ [u]) ++ (qs ++ app)).Nodup := by
        have h1 : ((result ++ [u]) ++ qs).Nodup := by
          rw [← hassoc]
          exact hnodup
        have h2 : (((result ++ [u]) ++ qs) ++ app).Nodup := by
          apply List.Nodup.append h1 happnd
          intro a ha happ
          apply happfresh a happ
          rw [hassoc]
          exact ha
        simpa [List.append_assoc] using h2
      have hsub' : ∀ x ∈ (result ++ [u]) ++ (qs ++ app), x ∈ KS := by
        intro x hx
        rcases List.mem_append.mp hx with h | h
        · exact hr1sub x h
        · rcases List.mem_append.mp h with h | h
          · exact hsub x (by
              rw [hassoc]
              exact List.mem_append.mpr (Or.inr h))
          · exact happKS x h
      have hdeg' : ∀ k ∈ KS, dictGet? ((dlGet adj u).foldl kahnVisit (indeg, qs)).1 k =
          some ((inDegNat adj KS k : Int) - (popCountNat adj (result ++ [u]) k : Int)) := by
        intro k hk
        rw [hpt' k, hdeg k hk]
        simp only [Option.map_some']
        congr 1
        rw [popCount_append_one]
        push_cast
        ring
      have hresnodup : result.Nodup := by
        have hsl : result.Sublist (result ++ u :: qs) := List.sublist_append_left _ _
        exact hnodup.sublist hsl
      have hressub : ∀ x ∈ result, x ∈ KS := fun x hx =>
        hsub x (List.mem_append.mpr (Or.inl hx))
      have hdb' : DepsBefore adj KS (result ++ [u]) := by
        intro pre k post hsplit s hsKS hedge
        rcases snoc_eq_append_cons hsplit with ⟨hku, hpre⟩ | ⟨post', hl⟩
        · subst hku
          subst hpre
          exact sourcesPopped adj hKS hresnodup hressub hu_done s hsKS hedge
        · exact hdb pre k post' hl s hsKS hedge
      have hmiss' : ∀ k ∈ KS, k ∉ (result ++ [u]) ++ (qs ++ app) →
          (popCountNat adj (result ++ [u]) k : Int) < (inDegNat adj KS k : Int) := by
        intro k hk hnot
        have hnotold : k ∉ result ++ u :: qs := by
          intro hmem
          apply hnot
          rw [hassoc] at hmem
          rcases List.mem_append.mp hmem with h | h
          · exact List.mem_append.mpr (Or.inl h)
          · exact List.mem_append.mpr (Or.inr (List.mem_append.mpr (Or.inl h)))
        have hnapp : k ∉ app := fun ha =>
          hnot (List.mem_append.mpr (Or.inr (List.mem_append.mpr (Or.inr ha))))
        have hold := hmiss k hk hnotold
        rw [popCount_append_one]
        by_contra hcon
        push_neg at hcon
        apply hnapp
        refine (hiff k).mpr ⟨(inDegNat adj KS k : Int) - (popCountNat adj result k : Int),
          hdeg k hk, by omega, by push_cast at hcon ⊢; omega⟩
      have hfuel' : (result ++ [u]).length + fuel = KS.length := by
        simp only [List.length_append, List.length_singleton]
        omega
      rw [happ]
      exact ih (qs ++ app) ((dlGet adj u).foldl kahnVisit (indeg, qs)).1 (result ++ [u])
        (hkeys'.trans hkeys) hdeg' hnodup' hsub' hrdone' hdb' hmiss' hfuel'

/-! ## The `in_degree` dict built by `topological_sort` -/

theorem dictGet?_mapVal {α β : Type} (d : List (Nat × α)) (f : α → β) (k : Nat) :
    dictGet? (d.map fun p => (p.1, f p.2)) k = (dictGet? d k).map f := by
  induction d with
  | nil => rfl
  | cons p rest ih =>
    obtain ⟨a, b⟩ := p
    by_cases ha : a = k <;> simp [dictGet?, ha, ih]

theorem dictGet?_append {α : Type} (d₁ d₂ : List (Nat × α)) (k : Nat) :
    dictGet? (d₁ ++ d₂) k =
      match dictGet? d₁ k with
      | some v => some v
      | none => dictGet? d₂ k := by
  induction d₁ with
  | nil => rfl
  | cons p rest ih =>
    obtain ⟨a, b⟩ := p
    by_cases ha : a = k <;> simp [dictGet?, ha, ih]

theorem dictGet?_isSome_of_mem {α : Type} {d : List (Nat × α)} {k : Nat}
    (h : k ∈ d.map Prod.fst) : (dictGet? d k).isSome := by
  induction d with
  | nil => simp at h
  | cons p rest ih =>
    obtain ⟨a, b⟩ := p
    by_cases ha : a = k
    · simp [dictGet?, ha]
    · rw [List.map_cons] at h
      rcases List.mem_cons.mp h with h' | h'
      · exact absurd h'.symm ha
      · simp [dictGet?, ha, ih h']

theorem dictContains_iff_mem {α : Type} (d : List (Nat × α)) (k : Nat) :
    dictContains d k = true ↔ k ∈ d.map Prod.fst := by
  unfold dictContains
  constructor
  · intro h
    cases hk : dictGet? d k with
    | none =>
      rw [hk] at h
      cases h
    | some v =>
      exact List.mem_map.mpr ⟨(k, v), mem_of_dictGet? hk, rfl⟩
  · intro h
    exact dictGet?_isSome_of_mem h

theorem foldZeros_spec :
    ∀ (ks : List Nat) (acc : List (Nat × Int)), ks.Nodup →
      (((ks.foldl (fun d k => if dictContains d k then d else d ++ [(k, 0)]) acc).map
          Prod.fst) = acc.map Prod.fst ++ ks.filter (fun k => k ∉ acc.map Prod.fst))
      ∧ (∀ k, dictGet?
          (ks.foldl (fun d k => if dictContains d k then d else d ++ [(k, 0)]) acc) k =
            match dictGet? acc k with
            | some v => some v
            | none => if k ∈ ks then some 0 else none) := by
  intro ks
  induction ks with
  | nil =>
    intro acc _
    refine ⟨by simp, ?_⟩
    intro k
    cases hk : dictGet? acc k <;> simp [hk]
  | cons k0 rest ih =>
    intro acc hnd
    rw [List.nodup_cons] at hnd
    simp only [List.foldl_cons]
    by_cases hc : dictContains acc k0 = true
    · rw [if_pos hc]
      obtain ⟨ihk, ihp⟩ := ih acc hnd.2
      have hk0mem : k0 ∈ acc.map Prod.fst := (dictContains_iff_mem acc k0).mp hc
      constructor
      · rw [ihk]
        congr 1
        rw [List.filter_cons]
        simp [hk0mem]
      · intro k
        rw [ihp k]
        cases hk : dictGet? acc k with
        | some v => rfl
        | none =>
          have hkk0 : k ≠ k0 := by
            intro he
            subst he
            have hs := dictGet?_isSome_of_mem hk0mem
            rw [hk] at hs
            cases hs
          have hmemiff : (k ∈ k0 :: rest) = (k ∈ rest) := by
            simp [List.mem_cons, hkk0]
          simp only [hmemiff]
    · rw [if_neg hc]
      obtain ⟨ihk, ihp⟩ := ih (acc ++ [(k0, 0)]) hnd.2
      have hk0nmem : k0 ∉ acc.map Prod.fst := fun hm =>
        hc ((dictContains_iff_mem acc k0).mpr hm)
      constructor
      · rw [ihk]
        have hfilter : rest.filter (fun k => k ∉ (acc ++ [(k0, 0)]).map Prod.fst) =
            rest.filter (fun k => k ∉ acc.map Prod.fst) := by
          apply List.filter_congr
          intro x hx
          have hxk0 : x ≠ k0 := fun he => hnd.1 (he ▸ hx)
          simp [List.mem_append, hxk0]
        rw [hfilter, List.map_append, List.filter_cons]
        simp [hk0nmem]
      · intro k
        rw [ihp k]
        rw [dictGet?_append]
        cases hk : dictGet? acc k with
        | some v => rfl
        | none =>
          by_cases hkk0 : k = k0
          · subst hkk0
            simp [dictGet?]
          · have hk0k : k0 ≠ k := fun he => hkk0 he.symm
            have h1 : dictGet? [(k0, (0 : Int))] k = none := by
              simp [dictGet?, hk0k]
            rw [h1]
            have hmemiff : (k ∈ k0 :: rest) = (k ∈ rest) := by
              simp [List.mem_cons, hkk0]
            simp only [hmemiff]

theorem initInDegree_spec (dag : TaskDAG)
    (hTN : (dag.tasks.map Prod.fst).Nodup)
    (hrN : (dag.reverse_adjacency.map Prod.fst).Nodup)
    (hrsub : ∀ k ∈ dag.reverse_adjacency.map Prod.fst, k ∈ dag.tasks.map Prod.fst) :
    ((initInDegree dag).map Prod.fst).Nodup
    ∧ (∀ k, k ∈ (initInDegree dag).map Prod.fst ↔ k ∈ dag.tasks.map Prod.fst)
    ∧ (∀ k ∈ (initInDegree dag).map Prod.fst,
        dictGet? (initInDegree dag) k =
          some ((dlGet dag.reverse_adjacency k).length : Int)) := by
  obtain ⟨hk, hp⟩ := foldZeros_spec (dag.tasks.map Prod.fst)
    (dag.reverse_adjacency.map fun p => (p.1, (p.2.length : Int))) hTN
  have hacckeys : ((dag.reverse_adjacency.map fun p => (p.1, (p.2.length : Int))).map
      Prod.fst) = dag.reverse_adjacency.map Prod.fst := by
    simp
  have hIID : initInDegree dag = (dag.tasks.map Prod.fst).foldl
      (fun d k => if dictContains d k then d else d ++ [(k, 0)])
      (dag.reverse_adjacency.map fun p => (p.1, (p.2.length : Int))) := rfl
  have hkeys : (initInDegree dag).map Prod.fst =
      dag.reverse_adjacency.map Prod.fst ++
        (dag.tasks.map Prod.fst).filter
          (fun k => k ∉ dag.reverse_adjacency.map Prod.fst) := by
    rw [hIID, hk]
    simp only [hacckeys]
  refine ⟨?_, ?_, ?_⟩
  · rw [hkeys]
    apply List.Nodup.append hrN (List.Nodup.filter _ hTN)
    intro a ha haf
    have h1 := List.of_mem_filter haf
    simp only [decide_eq_true_eq] at h1
    exact h1 ha
  · intro k
    rw [hkeys]
    simp only [List.mem_append, List.mem_filter, decide_eq_true_eq]
    constructor
    · rintro (h | h)
      · exact hrsub k h
      · exact h.1
    · intro h
      by_cases hr : k ∈ dag.reverse_adjacency.map Prod.fst
      · exact Or.inl hr
      · exact Or.inr ⟨h, hr⟩
  · intro k hkKS
    have hmapval : dictGet? (dag.reverse_adjacency.map fun p => (p.1, (p.2.length : Int))) k
        = (dictGet? dag.reverse_adjacency k).map (fun l => (l.length : Int)) :=
      dictGet?_mapVal dag.reverse_adjacency (fun l => (l.length : Int)) k
    rw [hIID, hp k]
    cases hradj : dictGet? dag.reverse_adjacency k with
    | some l =>
      rw [hmapval, hradj]
      simp only [Option.map_some']
      unfold dlGet
      rw [hradj]
      rfl
    | none =>
      rw [hmapval, hradj]
      simp only [Option.map_none']
      have hnr : k ∉ dag.reverse_adjacency.map Prod.fst := by
        intro hm
        have hs := dictGet?_isSome_of_mem hm
        rw [hradj] at hs
        cases hs
      have hkT : k ∈ dag.tasks.map Prod.fst := by
        rw [hkeys] at hkKS
        rcases List.mem_append.mp hkKS with h | h
        · exact absurd h hnr
        · exact (List.mem_filter.mp h).1
      rw [if_pos hkT]
      unfold dlGet
      rw [hradj]
      rfl

theorem popCount_nil (adj : List (Nat × List Nat)) (k : Nat) :
    popCountNat adj [] k = 0 := rfl

theorem topoIds_spec (dag : TaskDAG)
    (hTN : (dag.tasks.map Prod.fst).Nodup)
    (hrN : (dag.reverse_adjacency.map Prod.fst).Nodup)
    (hrsub : ∀ k ∈ dag.reverse_adjacency.map Prod.fst, k ∈ dag.tasks.map Prod.fst)
    (hB : ∀ k ∈ (initInDegree dag).map Prod.fst,
        inDegNat dag.adjacency_list ((initInDegree dag).map Prod.fst) k =
          (dlGet dag.reverse_adjacency k).length) :
    (topoIds dag).Nodup
    ∧ (∀ x ∈ topoIds dag, x ∈ (initInDegree dag).map Prod.fst)
    ∧ DepsBefore dag.adjacency_list ((initInDegree dag).map Prod.fst) (topoIds dag)
    ∧ (∀ k ∈ (initInDegree dag).map Prod.fst, k ∉ topoIds dag →
        (popCountNat dag.adjacency_list (topoIds dag) k : Int) <
          (inDegNat dag.adjacency_list ((initInDegree dag).map Prod.fst) k : Int)) := by
  obtain ⟨hKSN, hKSmem, hdeg0⟩ := initInDegree_spec dag hTN hrN hrsub
  have hseedsub : ∀ x ∈ ((initInDegree dag).filter fun p => p.2 = 0).map Prod.fst,
      x ∈ (initInDegree dag).map Prod.fst := by
    intro x hx
    rcases List.mem_map.mp hx with ⟨p, hp, hpx⟩
    exact List.mem_map.mpr ⟨p, List.mem_of_mem_filter hp, hpx⟩
  have hseednd : (((initInDegree dag).filter fun p => p.2 = 0).map Prod.fst).Nodup := by
    have hsl : ((initInDegree dag).filter fun p => p.2 = 0).Sublist (initInDegree dag) :=
      List.filter_sublist _
    exact hKSN.sublist (hsl.map Prod.fst)
  have hdeg : ∀ k ∈ (initInDegree dag).map Prod.fst, dictGet? (initInDegree dag) k =
      some ((inDegNat dag.adjacency_list ((initInDegree dag).map Prod.fst) k : Int) -
        (popCountNat dag.adjacency_list [] k : Int)) := by
    intro k hk
    rw [popCount_nil, hdeg0 k hk, hB k hk]
    push_cast
    ring_nf
  have hrdone : ∀ v ∈ ([] : List Nat) ++
      ((initInDegree dag).filter fun p => p.2 = 0).map Prod.fst,
      popCountNat dag.adjacency_list [] v =
        inDegNat dag.adjacency_list ((initInDegree dag).map Prod.fst) v := by
    intro v hv
    rw [List.nil_append] at hv
    rcases List.mem_map.mp hv with ⟨p, hp, hpx⟩
    obtain ⟨hpmem, hpz⟩ := List.mem_filter.mp hp
    simp only [decide_eq_true_eq] at hpz
    have hvKS : v ∈ (initInDegree dag).map Prod.fst := List.mem_map.mpr ⟨p, hpmem, hpx⟩
    have hget : dictGet? (initInDegree dag) v = some p.2 := by
      obtain ⟨a, b⟩ := p
      cases hpx
      exact dictGet?_of_mem hKSN hpmem
    rw [hdeg0 v hvKS] at hget
    have hlen : ((dlGet dag.reverse_adjacency v).length : Int) = p.2 :=
      Option.some.inj hget
    rw [popCount_nil, hB v hvKS]
    rw [hpz] at hlen
    omega
  have hmiss : ∀ k ∈ (initInDegree dag).map Prod.fst,
      k ∉ ([] : List Nat) ++ ((initInDegree dag).filter fun p => p.2 = 0).map Prod.fst →
      (popCountNat dag.adjacency_list [] k : Int) <
        (inDegNat dag.adjacency_list ((initInDegree dag).map Prod.fst) k : Int) := by
    intro k hk hnot
    rw [List.nil_append] at hnot
    rw [popCount_nil, hB k hk]
    have hget := hdeg0 k hk
    by_contra hcon
    push_neg at hcon
    have hlen0 : (dlGet dag.reverse_adjacency k).length = 0 := by
      push_cast at hcon
      omega
    apply hnot
    refine List.mem_map.mpr ⟨(k, ((dlGet dag.reverse_adjacency k).length : Int)), ?_, rfl⟩
    refine List.mem_filter.mpr ⟨mem_of_dictGet? hget, ?_⟩
    simp [hlen0]
  have hdb0 : DepsBefore dag.adjacency_list ((initInDegree dag).map Prod.fst) [] := by
    intro pre k post h
    cases pre <;> simp at h
  have hmain := kahnLoop_spec dag.adjacency_list ((initInDegree dag).map Prod.fst) hKSN
    (initInDegree dag).length
    (((initInDegree dag).filter fun p => p.2 = 0).map Prod.fst)
    (initInDegree dag) [] rfl hdeg
    (by
      rw [List.nil_append]
      exact hseednd)
    (by
      intro x hx
      rw [List.nil_append] at hx
      exact hseedsub x hx)
    hrdone hdb0 hmiss
    (by simp)
  exact hmain

/-! ## In-degree consistency of derived graphs -/

theorem count_flatten_nat (k : Nat) :
    ∀ ls : List (List Nat), ls.flatten.count k = (ls.map fun l => l.count k).sum := by
  intro ls
  induction ls with
  | nil => rfl
  | cons l rest ih =>
    simp only [List.flatten_cons, List.count_append, List.map_cons, List.sum_cons, ih]

theorem count_replicate_nat (k x n : Nat) :
    (List.replicate n x).count k = if x = k then n else 0 := by
  rw [List.count_replicate]
  by_cases h : k = x
  · subst h
    simp
  · have h2 : ¬(x = k) := fun he => h he.symm
    simp [h, h2]

theorem sumIfUnique (k : Nat) (f : Task → Nat) :
    ∀ (ts : List Task), (ts.map Task.id).Nodup →
      ∀ tk ∈ ts, tk.id = k →
      (ts.map fun t => if t.id = k then f t else 0).sum = f tk := by
  intro ts
  induction ts with
  | nil =>
    intro _ tk htk
    simp at htk
  | cons t rest ih =>
    intro hN tk htk hid
    rw [List.map_cons, List.nodup_cons] at hN
    rcases List.mem_cons.mp htk with h | h
    · subst h
      have hzero : (rest.map fun t => if t.id = k then f t else 0).sum = 0 := by
        rw [List.sum_eq_zero_iff]
        intro y hy
        rcases List.mem_map.mp hy with ⟨u, hu, huy⟩
        by_cases huk : u.id = k
        · exact absurd (List.mem_map.mpr ⟨u, hu, huk.trans hid.symm⟩) hN.1
        · rw [if_neg huk] at huy
          omega
      simp only [List.map_cons, List.sum_cons, if_pos hid, hzero]
      omega
    · have htid : t.id ≠ k := by
        intro he
        exact hN.1 (List.mem_map.mpr ⟨tk, h, hid.trans he.symm⟩)
      simp only [List.map_cons, List.sum_cons, if_neg htid]
      rw [ih hN.2 tk h hid]
      omega

theorem count_specAdjAt (ts : List Task) (s k : Nat) :
    (specAdjAt ts s).count k =
      (ts.map fun t => if t.id = k then t.dependencies.count s else 0).sum := by
  unfold specAdjAt
  rw [count_flatten_nat]
  congr 1
  rw [List.map_map]
  apply List.map_congr_left
  intro t _
  simp only [Function.comp_apply]
  exact count_replicate_nat k t.id (t.dependencies.count s)

theorem derived_facts (ts : List Task) (hN : (ts.map Task.id).Nodup) :
    ((derivedDAG ts).tasks.map Prod.fst = ts.map Task.id)
    ∧ ((derivedDAG ts).reverse_adjacency.map Prod.fst =
        (ts.filter fun t => !t.dependencies.isEmpty).map Task.id)
    ∧ (∀ t ∈ ts, dlGet (derivedDAG ts).reverse_adjacency t.id = t.dependencies)
    ∧ (∀ k, k ∉ ts.map Task.id → dlGet (derivedDAG ts).reverse_adjacency k = []) := by
  have hfilterN : ((ts.filter fun t => !t.dependencies.isEmpty).map Task.id).Nodup :=
    hN.sublist ((List.filter_sublist ts).map Task.id)
  have hfsub : ∀ x ∈ (ts.filter fun t => !t.dependencies.isEmpty).map Task.id,
      x ∈ ts.map Task.id := by
    intro x hx
    rcases List.mem_map.mp hx with ⟨u, hu, hux⟩
    exact List.mem_map.mpr ⟨u, List.mem_of_mem_filter hu, hux⟩
  refine ⟨?_, ?_, ?_, ?_⟩
  · rw [derivedDAG_tasks ts hN]
    simp
  · rw [derivedDAG_radj ts hN]
    simp
  · intro t ht
    rw [derivedDAG_radj ts hN]
    cases he : t.dependencies.isEmpty with
    | true =>
      have hdeps : t.dependencies = [] := List.isEmpty_iff.mp he
      have hnk : t.id ∉ ((ts.filter fun t => !t.dependencies.isEmpty).map
          fun t => (t.id, t.dependencies)).map Prod.fst := by
        intro hm
        simp only [List.map_map] at hm
        rcases List.mem_map.mp hm with ⟨u, hu, hux⟩
        simp only [Function.comp_apply] at hux
        have huf := List.of_mem_filter hu
        have humem : u ∈ ts := List.mem_of_mem_filter hu
        by_cases hut : u = t
        · subst hut
          rw [hdeps] at huf
          simp at huf
        · exact hut (List.inj_on_of_nodup_map hN humem ht hux)
      unfold dlGet
      rw [dictGet?_eq_none_of_not_mem hnk, hdeps]
      rfl
    | false =>
      have hmem : (t.id, t.dependencies) ∈ (ts.filter fun t => !t.dependencies.isEmpty).map
          fun t => (t.id, t.dependencies) := by
        refine List.mem_map.mpr ⟨t, ?_, rfl⟩
        refine List.mem_filter.mpr ⟨ht, ?_⟩
        simp [he]
      have hkN : (((ts.filter fun t => !t.dependencies.isEmpty).map
          fun t => (t.id, t.dependencies)).map Prod.fst).Nodup := by
        simp only [List.map_map]
        have : ((ts.filter fun t => !t.dependencies.isEmpty).map
            (Prod.fst ∘ fun t => (t.id, t.dependencies))) =
            (ts.filter fun t => !t.dependencies.isEmpty).map Task.id := rfl
        rw [this]
        exact hfilterN
      unfold dlGet
      rw [dictGet?_of_mem hkN hmem]
      rfl
  · intro k hk
    rw [derivedDAG_radj ts hN]
    have hnk : k ∉ ((ts.filter fun t => !t.dependencies.isEmpty).map
        fun t => (t.id, t.dependencies)).map Prod.fst := by
      intro hm
      simp only [List.map_map] at hm
      rcases List.mem_map.mp hm with ⟨u, hu, hux⟩
      simp only [Function.comp_apply] at hux
      apply hk
      rw [← hux]
      exact List.mem_map.mpr ⟨u, List.mem_of_mem_filter hu, rfl⟩
    unfold dlGet
    rw [dictGet?_eq_none_of_not_mem hnk]
    rfl

theorem result_no_cycle (adj : List (Nat × List Nat)) (R : List Nat) (hnd : R.Nodup)
    (hdb : ∀ pre k post, R = pre ++ k :: post → ∀ s, edgeRel adj s k → s ∈ pre) :
    ∀ u ∈ R, ¬ Relation.TransGen (edgeRel adj) u u := by
  have main : ∀ n pre u post, R = pre ++ u :: post → pre.length = n →
      ¬ Relation.TransGen (edgeRel adj) u u := by
    intro n
    induction n using Nat.strong_induction_on with
    | _ n IH =>
      intro pre u post hsplit hlen htg
      have hupre : u ∉ pre := by
        intro hu
        have hnd' := hsplit ▸ hnd
        rcases List.nodup_append.mp hnd' with ⟨_, _, hdisj⟩
        exact hdisj hu (List.mem_cons_self u post)
      cases htg with
      | single h =>
        exact hupre (hdb pre u post hsplit u h)
      | tail htg' hlast =>
        rename_i b
        have hbpre := hdb pre u post hsplit b hlast
        rcases List.append_of_mem hbpre with ⟨pre₁, post₁, hpre⟩
        have hsplit' : R = pre₁ ++ b :: (post₁ ++ u :: post) := by
          rw [hsplit, hpre]
          simp
        have hlen' : pre₁.length < n := by
          rw [hpre] at hlen
          simp only [List.length_append, List.length_cons] at hlen
          omega
        have htgb := (Relation.TransGen.single hlast).trans htg'
        exact IH pre₁.length hlen' pre₁ _ (post₁ ++ u :: post) hsplit' rfl htgb
  intro u hu htg
  rcases List.append_of_mem hu with ⟨pre, post, hsplit⟩
  exact main pre.length pre u post hsplit rfl htg

theorem derivedTopo_main (ts : List Task) (hN : (ts.map Task.id).Nodup)
    (hclosed : ∀ t ∈ ts, ∀ d ∈ t.dependencies, d ∈ ts.map Task.id) :
    (topoIds (derivedDAG ts)).Nodup
    ∧ (∀ x ∈ topoIds (derivedDAG ts), x ∈ ts.map Task.id)
    ∧ (∀ pre k post, topoIds (derivedDAG ts) = pre ++ k :: post →
        ∀ s, edgeRel (derivedDAG ts).adjacency_list s k → s ∈ pre)
    ∧ ((∀ u, ¬ Relation.TransGen (depEdge ts) u u) →
        ∀ k ∈ ts.map Task.id, k ∈ topoIds (derivedDAG ts))
    ∧ (∀ u ∈ topoIds (derivedDAG ts), ¬ Relation.TransGen (depEdge ts) u u) := by
  obtain ⟨hTkeys, hRkeys, hRget, hRnone⟩ := derived_facts ts hN
  have hTN : ((derivedDAG ts).tasks.map Prod.fst).Nodup := by
    rw [hTkeys]
    exact hN
  have hrN : ((derivedDAG ts).reverse_adjacency.map Prod.fst).Nodup := by
    rw [hRkeys]
    exact hN.sublist ((List.filter_sublist ts).map Task.id)
  have hrsub : ∀ k ∈ (derivedDAG ts).reverse_adjacency.map Prod.fst,
      k ∈ (derivedDAG ts).tasks.map Prod.fst := by
    rw [hRkeys, hTkeys]
    intro k hk
    rcases List.mem_map.mp hk with ⟨u, hu, hux⟩
    exact List.mem_map.mpr ⟨u, List.mem_of_mem_filter hu, hux⟩
  obtain ⟨hKSN, hKSmem, hdeg0⟩ := initInDegree_spec (derivedDAG ts) hTN hrN hrsub
  have hKSids : ∀ k, k ∈ (initInDegree (derivedDAG ts)).map Prod.fst ↔
      k ∈ ts.map Task.id := by
    intro k
    rw [hKSmem k, hTkeys]
  have hedge : ∀ s k, edgeRel (derivedDAG ts).adjacency_list s k ↔ depEdge ts s k :=
    fun s k => derived_edge_iff ts s k
  have hB : ∀ k ∈ (initInDegree (derivedDAG ts)).map Prod.fst,
      inDegNat (derivedDAG ts).adjacency_list
        ((initInDegree (derivedDAG ts)).map Prod.fst) k =
        (dlGet (derivedDAG ts).reverse_adjacency k).length := by
    intro k hk
    rcases List.mem_map.mp ((hKSids k).mp hk) with ⟨tk, htk, htkid⟩
    subst htkid
    rw [hRget tk htk]
    unfold inDegNat
    have hmapeq : ((initInDegree (derivedDAG ts)).map Prod.fst).map
        (fun s => (dlGet (derivedDAG ts).adjacency_list s).count tk.id) =
        ((initInDegree (derivedDAG ts)).map Prod.fst).map
          (fun s => tk.dependencies.count s) := by
      apply List.map_congr_left
      intro s _
      rw [derivedDAG_adj ts s, count_specAdjAt]
      exact sumIfUnique tk.id (fun t => t.dependencies.count s) ts hN tk htk rfl
    rw [hmapeq]
    exact sumCountsEqLength hKSN tk.dependencies
      (fun d hd => (hKSids d).mpr (hclosed tk htk d hd))
  obtain ⟨hnd, hsubKS, hdb, hmiss⟩ := topoIds_spec (derivedDAG ts) hTN hrN hrsub hB
  have hsubids : ∀ x ∈ topoIds (derivedDAG ts), x ∈ ts.map Task.id :=
    fun x hx => (hKSids x).mp (hsubKS x hx)
  have hdb' : ∀ pre k post, topoIds (derivedDAG ts) = pre ++ k :: post →
      ∀ s, edgeRel (derivedDAG ts).adjacency_list s k → s ∈ pre := by
    intro pre k post hsplit s hsk
    have hdep := (hedge s k).mp hsk
    obtain ⟨task, htask, hid, hsmem⟩ := hdep
    have hsids : s ∈ ts.map Task.id := hclosed task htask s hsmem
    exact hdb pre k post hsplit s ((hKSids s).mpr hsids) hsk
  refine ⟨hnd, hsubids, hdb', ?_, ?_⟩
  · intro hacyc k hk
    by_contra hkR
    set M := ((initInDegree (derivedDAG ts)).map Prod.fst).toFinset \
      (topoIds (derivedDAG ts)).toFinset with hM
    have hkM : k ∈ M := by
      rw [hM, Finset.mem_sdiff]
      exact ⟨List.mem_toFinset.mpr ((hKSids k).mpr hk),
        fun h => hkR (List.mem_toFinset.mp h)⟩
    have hpred : ∀ m ∈ M, ∃ s ∈ M, edgeRel (derivedDAG ts).adjacency_list s m := by
      intro m hm
      rw [hM, Finset.mem_sdiff] at hm
      obtain ⟨hmKS, hmR⟩ := hm
      have hmKS' := List.mem_toFinset.mp hmKS
      have hmR' : m ∉ topoIds (derivedDAG ts) := fun h => hmR (List.mem_toFinset.mpr h)
      have hlt := hmiss m hmKS' hmR'
      have hltN : popCountNat (derivedDAG ts).adjacency_list (topoIds (derivedDAG ts)) m <
          inDegNat (derivedDAG ts).adjacency_list
            ((initInDegree (derivedDAG ts)).map Prod.fst) m := by
        omega
      obtain ⟨s, hsKS, hsm, hsR⟩ := sourceUnpopped (derivedDAG ts).adjacency_list
        hKSN hnd hsubKS hltN
      refine ⟨s, ?_, hsm⟩
      rw [hM, Finset.mem_sdiff]
      exact ⟨List.mem_toFinset.mpr hsKS, fun h => hsR (List.mem_toFinset.mp h)⟩
    obtain ⟨u, huM, hcyc⟩ := cycleOfAllPred M ⟨k, hkM⟩ hpred
    have hcyc' : Relation.TransGen (depEdge ts) u u :=
      Relation.TransGen.mono (fun a b hab => (hedge a b).mp hab) hcyc
    exact hacyc u hcyc'
  · intro u hu htg
    have htg' : Relation.TransGen (edgeRel (derivedDAG ts).adjacency_list) u u :=
      Relation.TransGen.mono (fun a b hab => (hedge a b).mpr hab) htg
    exact result_no_cycle (derivedDAG ts).adjacency_list (topoIds (derivedDAG ts))
      hnd hdb' u hu htg'

/-! ## Sequences of `add_task` calls on acyclic task sets -/

theorem addAll_derived_ok (ts : List Task)
    (hacyc : ∀ u, ¬ Relation.TransGen (depEdge ts) u u) :
    ∀ rest done, done ++ rest = ts →
      addAll (derivedDAG done) rest = Except.ok (derivedDAG ts) := by
  intro rest
  induction rest with
  | nil =>
    intro done h
    rw [List.append_nil] at h
    rw [h]
    rfl
  | cons t rest ih =>
    intro done h
    have hsub : ∀ x ∈ done ++ [t], x ∈ ts := by
      intro x hx
      rw [← h]
      rcases List.mem_append.mp hx with hx | hx
      · exact List.mem_append.mpr (Or.inl hx)
      · rw [List.mem_singleton] at hx
        exact List.mem_append.mpr (Or.inr (hx ▸ List.mem_cons_self t rest))
    have hnc : has_cycle (derivedDAG (done ++ [t])) = false := by
      cases hcase : has_cycle (derivedDAG (done ++ [t])) with
      | false => rfl
      | true =>
        exfalso
        obtain ⟨u, hu⟩ := has_cycle_sound hcase
        have hu' : Relation.TransGen (depEdge (done ++ [t])) u u :=
          Relation.TransGen.mono
            (fun a b hab => (derived_edge_iff (done ++ [t]) a b).mp hab) hu
        have hu'' : Relation.TransGen (depEdge ts) u u :=
          Relation.TransGen.mono (fun a b hab => by
            obtain ⟨task, hm, hi, hd⟩ := hab
            exact ⟨task, hsub task hm, hi, hd⟩) hu'
        exact hacyc u hu''
    have hstep : add_task (derivedDAG done) t = Except.ok (derivedDAG (done ++ [t])) := by
      have he : insertTask (derivedDAG done) t = derivedDAG (done ++ [t]) :=
        (derivedDAG_append done t).symm
      simp only [add_task, he, hnc, Bool.false_eq_true, if_false]
    simp only [addAll, hstep]
    exact ih (done ++ [t]) (by rw [List.append_assoc]; exact h)

theorem dictGet?_mem_pair {α : Type} : ∀ {d : List (Nat × α)} {k : Nat} {v : α},
    dictGet? d k = some v → (k, v) ∈ d := by
  intro d
  induction d with
  | nil =>
    intro k v h
    simp [dictGet?] at h
  | cons p d ih =>
    intro k v h
    unfold dictGet? at h
    by_cases hk : p.1 = k
    · rw [if_pos hk] at h
      have hv : p.2 = v := Option.some_inj.mp h
      have hpv : (k, v) = p := by rw [← hk, ← hv]
      rw [hpv]
      exact List.mem_cons_self p d
    · rw [if_neg hk] at h
      exact List.mem_cons_of_mem p (ih h)

theorem filterMapLookup (tasks : List (Nat × Task)) :
    ∀ (R : List Nat),
      (∀ k ∈ R, ∃ t, dictGet? tasks k = some t ∧ t.id = k) →
      (R.filterMap (dictGet? tasks)).map Task.id = R := by
  intro R
  induction R with
  | nil =>
    intro _
    rfl
  | cons k R ih =>
    intro h
    obtain ⟨t, hget, hid⟩ := h k (List.mem_cons_self k R)
    simp only [List.filterMap_cons, hget, List.map_cons, hid]
    rw [ih (fun x hx => h x (List.mem_cons_of_mem k hx))]

/-! ## `get_blocked_tasks` fold characterisation -/

theorem listAnyCongr {l : List Nat} {f g : Nat → Bool} (h : ∀ x ∈ l, f x = g x) :
    l.any f = l.any g := by
  induction l with
  | nil => rfl
  | cons a rest ih =>
    simp only [List.any_cons]
    rw [h a (List.mem_cons_self a rest), ih fun x hx => h x (List.mem_cons.mpr (Or.inr hx))]

theorem dictGet?_applyBlocked (tasks : List (Nat × Task)) (S : List Nat) (k : Nat) :
    dictGet? (applyBlocked tasks S) k =
      (dictGet? tasks k).map fun t =>
        if k ∈ S then { t with status := TaskStatus.blocked } else t := by
  induction tasks with
  | nil => simp [applyBlocked, dictGet?]
  | cons p rest ih =>
    obtain ⟨a, b⟩ := p
    by_cases ha : a = k
    · subst ha
      simp [applyBlocked, dictGet?]
    · simpa [applyBlocked, dictGet?, ha] using ih

theorem hasFailedDep_applyBlocked (tasks : List (Nat × Task)) (S : List Nat) (t : Task)
    (hS : ∀ s ∈ S, ∃ u, dictGet? tasks s = some u ∧ isTerminalStatus u.status = false) :
    hasFailedDep (applyBlocked tasks S) t = hasFailedDep tasks t := by
  unfold hasFailedDep
  refine listAnyCongr ?_
  intro dep _
  rw [dictGet?_applyBlocked]
  cases hd : dictGet? tasks dep with
  | none => rfl
  | some d =>
    by_cases hdS : dep ∈ S
    · rcases hS dep hdS with ⟨u, hu, hterm⟩
      rw [hd] at hu
      cases hu
      have hne : (d.status = TaskStatus.failed) = False := by
        simp only [isTerminalStatus, Bool.or_eq_false_iff, decide_eq_false_iff_not] at hterm
        simp [hterm.1.2]
      simp [hdS, hne]
    · simp [hdS]

theorem applyBlocked_nil (tasks : List (Nat × Task)) : applyBlocked tasks [] = tasks := by
  simp [applyBlocked]

theorem applyBlocked_append_not_mem {tasks : List (Nat × Task)} {k : Nat} (S : List Nat)
    (h : k ∉ tasks.map Prod.fst) : applyBlocked tasks (S ++ [k]) = applyBlocked tasks S := by
  induction tasks with
  | nil => rfl
  | cons p rest ih =>
    obtain ⟨a, b⟩ := p
    rw [List.map_cons] at h
    have hak : a ≠ k := fun he => h (List.mem_cons.mpr (Or.inl he.symm))
    have hrest : k ∉ rest.map Prod.fst := fun hm => h (List.mem_cons.mpr (Or.inr hm))
    have hmem : (a ∈ S ++ [k]) = (a ∈ S) := by
      simp [List.mem_append, hak]
    simp only [applyBlocked, List.map_cons]
    simp only [hmem]
    have ih' := ih hrest
    simp only [applyBlocked] at ih'
    rw [ih']

theorem dictSet_applyBlocked {tasks : List (Nat × Task)} {S : List Nat} {k : Nat} {t : Task}
    (hN : (tasks.map Prod.fst).Nodup) (hget : dictGet? tasks k = some t) :
    dictSet (applyBlocked tasks S) k { t with status := TaskStatus.blocked } =
      applyBlocked tasks (S ++ [k]) := by
  induction tasks with
  | nil => simp [dictGet?] at hget
  | cons p rest ih =>
    obtain ⟨a, b⟩ := p
    rw [List.map_cons, List.nodup_cons] at hN
    by_cases ha : a = k
    · subst ha
      have hbt : b = t := by simpa [dictGet?] using hget
      subst hbt
      have h1 : applyBlocked rest (S ++ [a]) = applyBlocked rest S :=
        applyBlocked_append_not_mem S hN.1
      have hmem : a ∈ S ++ [a] := by simp
      simp [applyBlocked, dictSet, hmem, h1]
      intro a1 c1 hm1
      have hne : a1 ≠ a := by
        intro he
        apply hN.1
        rw [← he]
        exact List.mem_map.mpr ⟨(a1, c1), hm1, rfl⟩
      simp [hne]
    · have hget' : dictGet? rest k = some t := by simpa [dictGet?, ha] using hget
      have hmem : (a ∈ S ++ [k]) = (a ∈ S) := by
        simp [List.mem_append, ha]
      simp only [applyBlocked, List.map_cons, dictSet, if_neg ha]
      simp only [hmem]
      have ih' := ih hN.2 hget'
      simp only [applyBlocked] at ih'
      rw [ih']

theorem blockedFoldSpec (orig : List (Nat × Task)) :
    ∀ (todo S : List Nat) (bacc : List Task),
      (orig.map Prod.fst).Nodup → todo.Nodup → (∀ k ∈ todo, k ∉ S) →
      (∀ s ∈ S, ∃ u, dictGet? orig s = some u ∧ isTerminalStatus u.status = false) →
      todo.foldl blockedStep (bacc, applyBlocked orig S) =
        (bacc ++ (todo.filter (blocksAt orig)).filterMap
            (fun k => (dictGet? orig k).map fun t => { t with status := TaskStatus.blocked }),
          applyBlocked orig (S ++ todo.filter (blocksAt orig))) := by
  intro todo
  induction todo with
  | nil =>
    intro S bacc _ _ _ _
    simp
  | cons k rest ih =>
    intro S bacc hN hTd hTS hS
    rw [List.nodup_cons] at hTd
    have hkS : k ∉ S := hTS k (List.mem_cons_self k rest)
    have hTS' : ∀ k' ∈ rest, k' ∉ S := fun k' hk' => hTS k' (List.mem_cons.mpr (Or.inr hk'))
    have hgetA : dictGet? (applyBlocked orig S) k = dictGet? orig k := by
      rw [dictGet?_applyBlocked]
      cases dictGet? orig k with
      | none => rfl
      | some t => simp [hkS]
    simp only [List.foldl_cons]
    cases hget : dictGet? orig k with
    | none =>
      have hstep : blockedStep (bacc, applyBlocked orig S) k = (bacc, applyBlocked orig S) := by
        simp only [blockedStep]
        rw [hgetA, hget]
      have hbl : blocksAt orig k = false := by simp [blocksAt, hget]
      rw [hstep, ih S bacc hN hTd.2 hTS' hS]
      simp [hbl]
    | some t =>
      by_cases hterm : isTerminalStatus t.status = true
      · have hstep : blockedStep (bacc, applyBlocked orig S) k =
            (bacc, applyBlocked orig S) := by
          simp only [blockedStep]
          rw [hgetA, hget]
          simp [hterm]
        have hbl : blocksAt orig k = false := by simp [blocksAt, hget, hterm]
        rw [hstep, ih S bacc hN hTd.2 hTS' hS]
        simp [hbl]
      · by_cases hfd : hasFailedDep orig t = true
        · have hstep : blockedStep (bacc, applyBlocked orig S) k =
              (bacc ++ [{ t with status := TaskStatus.blocked }],
                applyBlocked orig (S ++ [k])) := by
            simp only [blockedStep]
            rw [hgetA, hget]
            simp [hterm, hasFailedDep_applyBlocked orig S t hS, hfd,
              dictSet_applyBlocked hN hget]
          have hbl : blocksAt orig k = true := by
            simp [blocksAt, hget, hterm, hfd]
          have hTS2 : ∀ k' ∈ rest, k' ∉ S ++ [k] := by
            intro k' hk'
            simp only [List.mem_append, List.mem_singleton]
            rintro (h | h)
            · exact hTS' k' hk' h
            · exact hTd.1 (h ▸ hk')
          have hnt : isTerminalStatus t.status = false := by
            simpa using hterm
          have hS2 : ∀ s ∈ S ++ [k], ∃ u, dictGet? orig s = some u ∧
              isTerminalStatus u.status = false := by
            intro s hs
            rcases List.mem_append.mp hs with h | h
            · exact hS s h
            · rw [List.mem_singleton.mp h]
              exact ⟨t, hget, hnt⟩
          have hrec := ih (S ++ [k]) (bacc ++ [{ t with status := TaskStatus.blocked }])
            hN hTd.2 hTS2 hS2
          rw [hstep, hrec]
          simp [hbl, hget, List.append_assoc]
        · have hstep : blockedStep (bacc, applyBlocked orig S) k =
              (bacc, applyBlocked orig S) := by
            simp only [blockedStep]
            rw [hgetA, hget]
            simp [hterm, hasFailedDep_applyBlocked orig S t hS, hfd]
          have hbl : blocksAt orig k = false := by
            simp [blocksAt, hget, hterm, hfd]
          rw [hstep, ih S bacc hN hTd.2 hTS' hS]
          simp [hbl]

theorem get_blocked_tasks_eq (dag : TaskDAG) (hN : (dag.tasks.map Prod.fst).Nodup) :
    get_blocked_tasks dag =
      ((blockKeys dag.tasks).filterMap
          (fun k => (dictGet? dag.tasks k).map fun t => { t with status := TaskStatus.blocked }),
        { dag with tasks := applyBlocked dag.tasks (blockKeys dag.tasks) }) := by
  have h := blockedFoldSpec dag.tasks (dag.tasks.map Prod.fst) [] [] hN hN
    (by simp) (by simp)
  rw [applyBlocked_nil] at h
  unfold get_blocked_tasks
  rw [h]
  simp [blockKeys]

theorem mem_blocked_list_iff (dag : TaskDAG) (hN : (dag.tasks.map Prod.fst).Nodup) (u : Task) :
    u ∈ (get_blocked_tasks dag).1 ↔
      ∃ k t, dictGet? dag.tasks k = some t ∧ isTerminalStatus t.status = false ∧
        hasFailedDep dag.tasks t = true ∧ u = { t with status := TaskStatus.blocked } := by
  rw [get_blocked_tasks_eq dag hN]
  simp only [List.mem_filterMap]
  constructor
  · rintro ⟨k, hkB, hfk⟩
    have hbl : blocksAt dag.tasks k = true := (List.mem_filter.mp hkB).2
    cases hget : dictGet? dag.tasks k with
    | none =>
      rw [hget] at hfk
      simp at hfk
    | some t =>
      rw [hget] at hfk
      have hfk' : { t with status := TaskStatus.blocked } = u := by
        simpa using hfk
      unfold blocksAt at hbl
      rw [hget] at hbl
      simp only [Bool.and_eq_true, Bool.not_eq_true'] at hbl
      exact ⟨k, t, hget, hbl.1, hbl.2, hfk'.symm⟩
  · rintro ⟨k, t, hget, hterm, hfd, hu⟩
    refine ⟨k, List.mem_filter.mpr ⟨?_, ?_⟩, ?_⟩
    · exact List.mem_map.mpr ⟨(k, t), mem_of_dictGet? hget, rfl⟩
    · simp [blocksAt, hget, hterm, hfd]
    · rw [hget, hu]
      rfl

/-! ## Claim theorems -/

/-- C2: `transition(to, trigger)` succeeds exactly when `to` is in the
transition table's allowed set for the current state; on failure it raises
`StateTransitionError` (naming current state, requested state and the allowed
set) and mutates nothing; on success it sets `previous_state` to the old
current state, sets `current_state` to `to`, appends exactly one record
`{from, to, trigger}` to the history and returns that record.  From `Idle`,
exactly the move to `Planning` succeeds. -/
theorem claim_C2_transition (o : Orchestrator) (toSt : LifecycleState) (trig : String) (now : Nat) :
    ((∃ r, (transition o toSt trig now).1 = Except.ok r) ↔ toSt ∈ TRANSITIONS o.current_state)
    ∧ (toSt ∈ TRANSITIONS o.current_state →
        transition o toSt trig now =
          (Except.ok ⟨o.current_state, toSt, now, trig⟩,
            { o with
              previous_state := some o.current_state
              current_state := toSt
              transition_history :=
                o.transition_history ++ [⟨o.current_state, toSt, now, trig⟩] }))
    ∧ (toSt ∉ TRANSITIONS o.current_state →
        transition o toSt trig now =
          (Except.error (o.current_state, toSt, TRANSITIONS o.current_state), o))
    ∧ (o.current_state = LifecycleState.idle →
        ((∃ r, (transition o toSt trig now).1 = Except.ok r) ↔ toSt = LifecycleState.planning)) := by
  have h1 : (∃ r, (transition o toSt trig now).1 = Except.ok r) ↔
      toSt ∈ TRANSITIONS o.current_state := by
    by_cases hmem : toSt ∈ TRANSITIONS o.current_state <;>
      simp [transition, can_transition, hmem]
  refine ⟨h1, ?_, ?_, ?_⟩
  · intro hmem
    simp [transition, can_transition, hmem]
  · intro hmem
    simp [transition, can_transition, hmem]
  · intro hid
    rw [h1, hid]
    simp [TRANSITIONS]

/-- Witness for C2 at a concrete input: from the freshly initialised
orchestrator (state `Idle`), `transition(Planning, "manual")` succeeds with
the expected record and posterior state. -/
theorem claim_C2_transition_witness :
    transition initOrchestrator LifecycleState.planning "manual" 5 =
      (Except.ok ⟨LifecycleState.idle, LifecycleState.planning, 5, "manual"⟩,
        ⟨LifecycleState.planning, some LifecycleState.idle,
          [⟨LifecycleState.idle, LifecycleState.planning, 5, "manual"⟩], none⟩) :=
  (claim_C2_transition initOrchestrator LifecycleState.planning "manual" 5).2.1 (by decide)

/-- C9: `reset()` succeeds from every state: afterwards the current state is
`Idle` and the in-flight task reference is cleared, while the transition
history and the recorded previous state are left unchanged. -/
theorem claim_C9_reset (o : Orchestrator) :
    (reset o).current_state = LifecycleState.idle
    ∧ (reset o).current_task = none
    ∧ (reset o).transition_history = o.transition_history
    ∧ (reset o).previous_state = o.previous_state :=
  ⟨rfl, rfl, rfl, rfl⟩

/-- C3: `get_ready_tasks` returns exactly the tasks whose status is pending
and whose every present dependency is completed (absent dependencies count as
satisfied), sorted by `(priority asc, created_at asc)`; consequently
`get_next_task` never returns a task when an equal-priority ready task
created strictly earlier exists. -/
theorem claim_C3_ready_order (dag : TaskDAG) :
    (∀ t, t ∈ get_ready_tasks dag ↔
      t ∈ dag.tasks.map Prod.snd ∧ t.status = TaskStatus.pending ∧
        ∀ dep ∈ t.dependencies, ∀ d, dictGet? dag.tasks dep = some d →
          d.status = TaskStatus.completed)
    ∧ (get_ready_tasks dag).Pairwise (fun a b =>
        a.priority < b.priority ∨ (a.priority = b.priority ∧ a.created_at ≤ b.created_at))
    ∧ (∀ a b, a ∈ get_ready_tasks dag → b ∈ get_ready_tasks dag →
        a.priority = b.priority → a.created_at < b.created_at →
        get_next_task dag ≠ some b) := by
  refine ⟨?_, ?_, ?_⟩
  · intro t
    rw [mem_get_ready_tasks, depsCompleted_iff]
  · exact (stableSortTasks_pairwise _).imp (fun h => (taskKeyLE_iff _ _).mp h)
  · intro a b ha hb hpri hca hnext
    cases hr : get_ready_tasks dag with
    | nil =>
      rw [hr] at ha
      simp at ha
    | cons c l' =>
      have hbc : c = b := by
        have : (c :: l').head? = some b := by
          rw [← hr]
          exact hnext
        simpa using this
      subst hbc
      have hab : a ≠ c := by
        intro h
        rw [h] at hca hpri
        omega
      have ha' : a ∈ l' := by
        rw [hr] at ha
        rcases List.mem_cons.mp ha with h | h
        · exact absurd h hab
        · exact h
      have hp := stableSortTasks_pairwise ((dag.tasks.map Prod.snd).filter fun t =>
        t.status = TaskStatus.pending && depsCompleted dag.tasks t)
      rw [show stableSortTasks ((dag.tasks.map Prod.snd).filter fun t =>
        t.status = TaskStatus.pending && depsCompleted dag.tasks t) = get_ready_tasks dag
        from rfl, hr] at hp
      have hca' := (taskKeyLE_iff c a).mp ((List.pairwise_cons.mp hp).1 a ha')
      omega

/-- Witness for C3 at a concrete input: three dependency-free pending tasks,
two sharing priority 5 with creation times 3 and 7; the task created at 7 is
not returned by `get_next_task`. -/
theorem claim_C3_ready_order_witness :
    get_next_task ⟨[(10, ⟨10, [], TaskStatus.pending, 5, 7⟩),
        (11, ⟨11, [], TaskStatus.pending, 5, 3⟩),
        (12, ⟨12, [], TaskStatus.pending, 1, 9⟩)], [], []⟩ ≠
      some ⟨10, [], TaskStatus.pending, 5, 7⟩ :=
  (claim_C3_ready_order _).2.2 ⟨11, [], TaskStatus.pending, 5, 3⟩
    ⟨10, [], TaskStatus.pending, 5, 7⟩ (by decide) (by decide) (by decide) (by decide)

/-- C7: `remove_task(id)` on a present id removes the task and prunes it from
both adjacency views: afterwards neither `get_task_dependents` nor
`get_task_dependencies` of any task mentions the removed id, and the id no
longer resolves; removing an absent id is a no-op that leaves the whole graph
unchanged and raises no error.  (`hK` is the key-consistency invariant of all
reachable states: the stored record's id equals its dict key.) -/
theorem claim_C7_remove_task (dag : TaskDAG) (tid : Nat)
    (hN : (dag.tasks.map Prod.fst).Nodup)
    (hK : ∀ p ∈ dag.tasks, (p : Nat × Task).2.id = p.1) :
    (dictGet? dag.tasks tid = none → remove_task dag tid = dag)
    ∧ (∀ x u, u ∈ get_task_dependents (remove_task dag tid) x → u.id ≠ tid)
    ∧ (∀ x u, u ∈ get_task_dependencies (remove_task dag tid) x → u.id ≠ tid)
    ∧ get_task (remove_task dag tid) tid = none := by
  have hget : ∀ k, dictGet? (remove_task dag tid).tasks k =
      if k = tid then none else dictGet? dag.tasks k := by
    intro k
    cases h : dictGet? dag.tasks tid with
    | none =>
      have hrm : remove_task dag tid = dag := by simp [remove_task, h]
      rw [hrm]
      by_cases hk : k = tid
      · subst hk
        simpa using h
      · simp [hk]
    | some task =>
      have hrm : (remove_task dag tid).tasks = dictErase dag.tasks tid := by
        simp [remove_task, h]
      rw [hrm]
      by_cases hk : k = tid
      · subst hk
        simp [dictGet?_dictErase_self hN]
      · simp [hk, dictGet?_dictErase_ne _ hk]
  have hu : ∀ {k u}, dictGet? (remove_task dag tid).tasks k = some u → u.id ≠ tid := by
    intro k u hku
    rw [hget k] at hku
    by_cases hk : k = tid
    · rw [if_pos hk] at hku
      cases hku
    · rw [if_neg hk] at hku
      have hid : u.id = k := hK (k, u) (mem_of_dictGet? hku)
      exact fun he => hk (hid.symm.trans he)
  refine ⟨?_, ?_, ?_, ?_⟩
  · intro h
    simp [remove_task, h]
  · intro x u hu'
    unfold get_task_dependents at hu'
    rcases List.mem_filterMap.mp hu' with ⟨k, _, hk⟩
    exact hu hk
  · intro x u hu'
    unfold get_task_dependencies at hu'
    revert hu'
    cases h : dictGet? (remove_task dag tid).tasks x with
    | none =>
      intro hu'
      simp at hu'
    | some task =>
      intro hu'
      rcases List.mem_filterMap.mp hu' with ⟨dep, _, hdep⟩
      exact hu hdep
  · have h := hget tid
    simpa [get_task] using h

/-- Witness for C7 at a concrete input: removing task 2 (which depends on
task 1) from a two-task graph leaves id 2 unresolvable. -/
theorem claim_C7_remove_task_witness :
    get_task (remove_task ⟨[(1, ⟨1, [], TaskStatus.pending, 100, 0⟩),
        (2, ⟨2, [1], TaskStatus.pending, 100, 1⟩)], [(1, [2])], [(2, [1])]⟩ 2) 2 = none :=
  (claim_C7_remove_task ⟨[(1, ⟨1, [], TaskStatus.pending, 100, 0⟩),
    (2, ⟨2, [1], TaskStatus.pending, 100, 1⟩)], [(1, [2])], [(2, [1])]⟩ 2
    (by decide) (by decide)).2.2.2

/-- C6: `get_blocked_tasks` returns exactly the non-terminal tasks (status not
completed/failed/skipped) having at least one present dependency with status
failed, each returned with its status reclassified to blocked; the stored dict
is updated accordingly (a mutating read), and every reclassified task is
excluded from `get_ready_tasks` on the posterior graph. -/
theorem claim_C6_blocked (dag : TaskDAG)
    (hN : (dag.tasks.map Prod.fst).Nodup)
    (hK : ∀ p ∈ dag.tasks, (p : Nat × Task).2.id = p.1) :
    (∀ u, u ∈ (get_blocked_tasks dag).1 ↔
      ∃ k t, dictGet? dag.tasks k = some t ∧ isTerminalStatus t.status = false ∧
        hasFailedDep dag.tasks t = true ∧ u = { t with status := TaskStatus.blocked })
    ∧ (∀ k t, dictGet? dag.tasks k = some t →
        dictGet? (get_blocked_tasks dag).2.tasks k =
          some (if isTerminalStatus t.status = false ∧ hasFailedDep dag.tasks t = true
            then { t with status := TaskStatus.blocked } else t))
    ∧ (∀ u ∈ (get_blocked_tasks dag).1, ∀ w ∈ get_ready_tasks (get_blocked_tasks dag).2,
        w.id ≠ u.id) := by
  refine ⟨mem_blocked_list_iff dag hN, ?_, ?_⟩
  · intro k t hget
    have hkeys : k ∈ dag.tasks.map Prod.fst :=
      List.mem_map.mpr ⟨(k, t), mem_of_dictGet? hget, rfl⟩
    have htasks : (get_blocked_tasks dag).2.tasks =
        applyBlocked dag.tasks (blockKeys dag.tasks) := by
      rw [get_blocked_tasks_eq dag hN]
    rw [htasks, dictGet?_applyBlocked, hget]
    by_cases hc : isTerminalStatus t.status = false ∧ hasFailedDep dag.tasks t = true
    · have hbk : k ∈ blockKeys dag.tasks := by
        refine List.mem_filter.mpr ⟨hkeys, ?_⟩
        simp [blocksAt, hget, hc.1, hc.2]
      rw [if_pos hc]
      simp [hbk]
    · have hbk : k ∉ blockKeys dag.tasks := by
        intro hmem
        have hbl := (List.mem_filter.mp hmem).2
        unfold blocksAt at hbl
        rw [hget] at hbl
        simp only [Bool.and_eq_true, Bool.not_eq_true'] at hbl
        exact hc ⟨hbl.1, hbl.2⟩
      rw [if_neg hc]
      simp [hbk]
  · intro u hu w hw
    rcases (mem_blocked_list_iff dag hN u).mp hu with ⟨k, t, hget, hterm, hfd, hueq⟩
    have huid : u.id = k := by
      rw [hueq]
      exact hK (k, t) (mem_of_dictGet? hget)
    have htasks : (get_blocked_tasks dag).2.tasks =
        applyBlocked dag.tasks (blockKeys dag.tasks) := by
      rw [get_blocked_tasks_eq dag hN]
    rcases (mem_get_ready_tasks _ w).mp hw with ⟨hwmem, hwpend, _⟩
    rw [htasks] at hwmem
    rcases List.mem_map.mp hwmem with ⟨q, hq, hqw⟩
    unfold applyBlocked at hq
    rcases List.mem_map.mp hq with ⟨p, hp, hpq⟩
    have hwval : w = if p.1 ∈ blockKeys dag.tasks
        then { p.2 with status := TaskStatus.blocked } else p.2 := by
      rw [← hqw, ← hpq]
    by_cases hbk : p.1 ∈ blockKeys dag.tasks
    · rw [hwval, if_pos hbk] at hwpend
      cases hwpend
    · rw [hwval, if_neg hbk]
      rw [huid]
      have hpid : p.2.id = p.1 := hK p hp
      rw [hpid]
      intro he
      apply hbk
      rw [he]
      refine List.mem_filter.mpr ⟨?_, ?_⟩
      · exact List.mem_map.mpr ⟨(k, t), mem_of_dictGet? hget, rfl⟩
      · simp [blocksAt, hget, hterm, hfd]

/-- Witness for C6 at a concrete input: task 1 failed, task 2 pending and
depending on 1; after the call task 2 is stored with status blocked. -/
theorem claim_C6_blocked_witness :
    dictGet? (get_blocked_tasks ⟨[(1, ⟨1, [], TaskStatus.failed, 100, 0⟩),
        (2, ⟨2, [1], TaskStatus.pending, 100, 1⟩)], [(1, [2])], [(2, [1])]⟩).2.tasks 2 =
      some ⟨2, [1], TaskStatus.blocked, 100, 1⟩ := by
  have h := (claim_C6_blocked ⟨[(1, ⟨1, [], TaskStatus.failed, 100, 0⟩),
    (2, ⟨2, [1], TaskStatus.pending, 100, 1⟩)], [(1, [2])], [(2, [1])]⟩
    (by decide) (by decide)).2.1 2 ⟨2, [1], TaskStatus.pending, 100, 1⟩ (by decide)
  rw [if_pos (by decide)] at h
  exact h

/-- C10: on any one graph state, the ready set and the blocked set are
disjoint: no task id occurs both in `get_ready_tasks` and in the list
`get_blocked_tasks` computes on that same state. -/
theorem claim_C10_ready_blocked_disjoint (dag : TaskDAG)
    (hN : (dag.tasks.map Prod.fst).Nodup)
    (hK : ∀ p ∈ dag.tasks, (p : Nat × Task).2.id = p.1) :
    ∀ i, ¬(i ∈ (get_ready_tasks dag).map Task.id
      ∧ i ∈ ((get_blocked_tasks dag).1).map Task.id) := by
  rintro i ⟨hr, hb⟩
  rcases List.mem_map.mp hr with ⟨a, har, hai⟩
  rcases List.mem_map.mp hb with ⟨u, hub, hui⟩
  rcases (mem_get_ready_tasks dag a).mp har with ⟨hamem, hapend, hadeps⟩
  rcases (mem_blocked_list_iff dag hN u).mp hub with ⟨k, t, hget, _, hfd, hueq⟩
  have htid : t.id = k := hK (k, t) (mem_of_dictGet? hget)
  have huid : u.id = k := by
    rw [hueq]
    exact htid
  rcases List.mem_map.mp hamem with ⟨p, hp, hpa⟩
  have hpid : a.id = p.1 := by
    rw [← hpa]
    exact hK p hp
  have hpk : p.1 = k := by
    rw [← hpid, hai, ← hui, huid]
  have hlook : dictGet? dag.tasks k = some a := by
    rw [← hpk, ← hpa]
    exact dictGet?_of_mem hN (by
      rcases p with ⟨p1, p2⟩
      exact hp)
  have hat : a = t := by
    have hget' := hget
    rw [hlook] at hget'
    exact Option.some.inj hget'
  rcases List.any_eq_true.mp hfd with ⟨dep, hdep, hdfail⟩
  have hdep' : dep ∈ a.dependencies := by
    rw [hat]
    exact hdep
  revert hdfail
  cases hd : dictGet? dag.tasks dep with
  | none => simp
  | some d =>
    intro hdfail
    simp only [decide_eq_true_eq] at hdfail
    have hcomp := (depsCompleted_iff dag.tasks a).mp hadeps dep hdep' d hd
    rw [hdfail] at hcomp
    cases hcomp

/-- Witness for C10 at a concrete input: with task 1 failed and task 2 pending
on it, id 2 is not in both the ready and the blocked result. -/
theorem claim_C10_ready_blocked_disjoint_witness :
    ¬((2 : Nat) ∈ (get_ready_tasks ⟨[(1, ⟨1, [], TaskStatus.failed, 100, 0⟩),
        (2, ⟨2, [1], TaskStatus.pending, 100, 1⟩)], [(1, [2])], [(2, [1])]⟩).map Task.id
      ∧ (2 : Nat) ∈ ((get_blocked_tasks ⟨[(1, ⟨1, [], TaskStatus.failed, 100, 0⟩),
        (2, ⟨2, [1], TaskStatus.pending, 100, 1⟩)], [(1, [2])], [(2, [1])]⟩).1).map Task.id) :=
  claim_C10_ready_blocked_disjoint ⟨[(1, ⟨1, [], TaskStatus.failed, 100, 0⟩),
    (2, ⟨2, [1], TaskStatus.pending, 100, 1⟩)], [(1, [2])], [(2, [1])]⟩
    (by decide) (by decide) 2

/-- C1 (code bug): on a cycle, `add_task` deletes only the task entry and
leaves the freshly inserted edges in both adjacency indexes.  Concretely:
insert task 1 depending on the not-yet-present task 2 (a permitted forward
reference), then attempt to insert task 2 depending on task 1.  The call
raises `DAGCycleError` and task 2 is gone and the task count is back to 1,
but both adjacency indexes retain the inserted edges (`_adjacency_list[1]`
grew from `[]` to `[2]`), the stored edge relation now contains the loop
`1 → 2 → 1`, and the residue makes `add_task` of a dependency-free task 2
fail with `DAGCycleError` on this one-task graph — the graph is neither
left unchanged nor acyclic after the failed call. -/
theorem claim_C1_rollback_bug :
    ∃ dag1 dag2 : TaskDAG,
      addAll emptyDAG [⟨1, [2], TaskStatus.pending, 100, 0⟩] = Except.ok dag1
      ∧ add_task dag1 ⟨2, [1], TaskStatus.pending, 100, 1⟩ = Except.error (2, dag2)
      ∧ dictGet? dag2.tasks 2 = none
      ∧ dag2.tasks.length = dag1.tasks.length
      ∧ dlGet dag1.adjacency_list 1 = []
      ∧ dlGet dag2.adjacency_list 1 = [2]
      ∧ dag2.adjacency_list ≠ dag1.adjacency_list
      ∧ dag2.reverse_adjacency ≠ dag1.reverse_adjacency
      ∧ Relation.TransGen (edgeRel dag2.adjacency_list) 1 1
      ∧ (∃ dag3, add_task dag2 ⟨2, [], TaskStatus.pending, 100, 2⟩ =
          Except.error (2, dag3)) := by
  refine ⟨⟨[(1, ⟨1, [2], TaskStatus.pending, 100, 0⟩)], [(2, [1])], [(1, [2])]⟩,
    ⟨[(1, ⟨1, [2], TaskStatus.pending, 100, 0⟩)], [(2, [1]), (1, [2])],
      [(1, [2]), (2, [1])]⟩, ?_, ?_, ?_, ?_, ?_, ?_, ?_, ?_, ?_, ?_⟩
  · rfl
  · rfl
  · decide
  · decide
  · decide
  · decide
  · decide
  · decide
  · have e12 : edgeRel [(2, [1]), (1, [2])] 1 2 := by decide
    have e21 : edgeRel [(2, [1]), (1, [2])] 2 1 := by decide
    exact Relation.TransGen.head e12 (Relation.TransGen.single e21)
  · exact ⟨⟨[(1, ⟨1, [2], TaskStatus.pending, 100, 0⟩)], [(2, [1]), (1, [2])],
      [(1, [2]), (2, [1])]⟩, rfl⟩

/-- C8 counterexample: re-inserting an already present task is accepted, but
it appends the task's edges a second time, so the posterior graph is not
observationally equivalent to the prior one.  With task 1 and task 2
(depending on 1) present, re-adding the identical record of task 2 makes
`get_task_dependents(1)` list task 2 twice; and in a three-task graph
(2 and 3 both depending on 1) re-adding task 2 changes the order
`topological_sort` returns from `[1, 2, 3]` to `[1, 3, 2]`. -/
theorem claim_C8_counterexample :
    (∃ dag dag' : TaskDAG,
      addAll emptyDAG [⟨1, [], TaskStatus.pending, 100, 0⟩,
        ⟨2, [1], TaskStatus.pending, 100, 1⟩] = Except.ok dag
      ∧ add_task dag ⟨2, [1], TaskStatus.pending, 100, 1⟩ = Except.ok dag'
      ∧ (get_task_dependents dag 1).map Task.id = [2]
      ∧ (get_task_dependents dag' 1).map Task.id = [2, 2]
      ∧ get_task_dependents dag' 1 ≠ get_task_dependents dag 1)
    ∧ (∃ dagb dagb' : TaskDAG,
      addAll emptyDAG [⟨1, [], TaskStatus.pending, 100, 0⟩,
        ⟨2, [1], TaskStatus.pending, 100, 1⟩,
        ⟨3, [1], TaskStatus.pending, 100, 2⟩] = Except.ok dagb
      ∧ add_task dagb ⟨2, [1], TaskStatus.pending, 100, 1⟩ = Except.ok dagb'
      ∧ (topological_sort dagb).map (List.map Task.id) = Except.ok [1, 2, 3]
      ∧ (topological_sort dagb').map (List.map Task.id) = Except.ok [1, 3, 2]) := by
  constructor
  · refine ⟨⟨[(1, ⟨1, [], TaskStatus.pending, 100, 0⟩),
        (2, ⟨2, [1], TaskStatus.pending, 100, 1⟩)], [(1, [2])], [(2, [1])]⟩,
      ⟨[(1, ⟨1, [], TaskStatus.pending, 100, 0⟩),
        (2, ⟨2, [1], TaskStatus.pending, 100, 1⟩)], [(1, [2, 2])], [(2, [1, 1])]⟩,
      rfl, rfl, by decide, by decide, by decide⟩
  · refine ⟨⟨[(1, ⟨1, [], TaskStatus.pending, 100, 0⟩),
        (2, ⟨2, [1], TaskStatus.pending, 100, 1⟩),
        (3, ⟨3, [1], TaskStatus.pending, 100, 2⟩)], [(1, [2, 3])], [(2, [1]), (3, [1])]⟩,
      ⟨[(1, ⟨1, [], TaskStatus.pending, 100, 0⟩),
        (2, ⟨2, [1], TaskStatus.pending, 100, 1⟩),
        (3, ⟨3, [1], TaskStatus.pending, 100, 2⟩)], [(1, [2, 3, 2])], [(2, [1, 1]), (3, [1])]⟩,
      rfl, rfl, rfl, rfl⟩

/-- C8 amended: inserting a task whose id already exists is not rejected
(replace and warn); when the re-insertion of the identical stored record
succeeds, the stored task dict is unchanged, so `get_task`,
`get_ready_tasks` and `get_task_dependencies` are unchanged — but the
adjacency indexes gain duplicate edges, so `get_task_dependents` and the
order of `topological_sort` may change (see the counterexample). -/
theorem claim_C8_amended (dag : TaskDAG) (t : Task) (dag' : TaskDAG)
    (hmem : dictGet? dag.tasks t.id = some t)
    (hok : add_task dag t = Except.ok dag') :
    dag'.tasks = dag.tasks
    ∧ (∀ k, get_task dag' k = get_task dag k)
    ∧ get_ready_tasks dag' = get_ready_tasks dag
    ∧ (∀ k, get_task_dependencies dag' k = get_task_dependencies dag k) := by
  have h1 : dag' = insertTask dag t := by
    simp only [add_task] at hok
    by_cases hc : has_cycle (insertTask dag t) = true
    · rw [if_pos hc] at hok
      cases hok
    · rw [if_neg hc] at hok
      exact (Except.ok.inj hok).symm
  have htasks : dag'.tasks = dag.tasks := by
    rw [h1]
    exact dictSet_of_get hmem
  refine ⟨htasks, ?_, ?_, ?_⟩
  · intro k
    unfold get_task
    rw [htasks]
  · unfold get_ready_tasks
    rw [htasks]
  · intro k
    unfold get_task_dependencies
    rw [htasks]

/-- Witness for the amended C8 at a concrete input: re-adding task 2's record
leaves the ready list unchanged. -/
theorem claim_C8_amended_witness :
    get_ready_tasks ⟨[(1, ⟨1, [], TaskStatus.pending, 100, 0⟩),
        (2, ⟨2, [1], TaskStatus.pending, 100, 1⟩)], [(1, [2, 2])], [(2, [1, 1])]⟩ =
      get_ready_tasks ⟨[(1, ⟨1, [], TaskStatus.pending, 100, 0⟩),
        (2, ⟨2, [1], TaskStatus.pending, 100, 1⟩)], [(1, [2])], [(2, [1])]⟩ :=
  (claim_C8_amended ⟨[(1, ⟨1, [], TaskStatus.pending, 100, 0⟩),
      (2, ⟨2, [1], TaskStatus.pending, 100, 1⟩)], [(1, [2])], [(2, [1])]⟩
    ⟨2, [1], TaskStatus.pending, 100, 1⟩
    ⟨[(1, ⟨1, [], TaskStatus.pending, 100, 0⟩),
      (2, ⟨2, [1], TaskStatus.pending, 100, 1⟩)], [(1, [2, 2])], [(2, [1, 1])]⟩
    (by decide) rfl).2.2.1

/-- C4 counterexample: the claim fails for acyclic task sets with a dangling
dependency reference.  The one-task set `[task 5 depending on task 7]` has an
acyclic dependency relation and `add_task` accepts it (forward references are
permitted), but `topological_sort` raises `DAGCycleError` instead of returning
the single task: the dangling reference gives task 5 in-degree 1, so Kahn's
frontier is empty and the result set is smaller than the task count. -/
theorem claim_C4_counterexample :
    ∃ dag : TaskDAG,
      (∀ u, ¬ Relation.TransGen
        (depEdge [⟨5, [7], TaskStatus.pending, 100, 0⟩]) u u)
      ∧ addAll emptyDAG [⟨5, [7], TaskStatus.pending, 100, 0⟩] = Except.ok dag
      ∧ dag.tasks.length = 1
      ∧ topological_sort dag = Except.error () := by
  refine ⟨⟨[(5, ⟨5, [7], TaskStatus.pending, 100, 0⟩)], [(7, [5])], [(5, [7])]⟩,
    ?_, rfl, rfl, rfl⟩
  intro u htg
  have hsrc : ∀ a b, depEdge [⟨5, [7], TaskStatus.pending, 100, 0⟩] a b →
      a = 7 ∧ b = 5 := by
    rintro a b ⟨task, hm, hi, hd⟩
    rcases List.mem_cons.mp hm with h | h
    · rw [h] at hi hd
      have hi' : (5 : Nat) = b := hi
      have hd' : a ∈ [7] := hd
      rw [List.mem_singleton] at hd'
      exact ⟨hd', hi'.symm⟩
    · simp at h
  obtain ⟨w, hw⟩ := transGenHead htg
  obtain ⟨w', hw'⟩ := transGenLast htg
  have h1 := (hsrc u w hw).1
  have h2 := (hsrc w' u hw').2
  omega

/-- C4 (amended): for every task set whose ids are distinct, whose
dependencies all reference tasks of the set, and whose dependency relation is
acyclic, calling `add_task` for each task in any insertion order succeeds (no
`DAGCycleError`) and produces exactly the derived graph of that order, and
`topological_sort` afterwards returns a list with one entry per task (its
length is the task count and its ids are a permutation of the set's ids) in
which every dependency precedes each of its dependents. -/
theorem claim_C4_amended (ts ts2 : List Task)
    (hperm : ts2.Perm ts)
    (hN : (ts.map Task.id).Nodup)
    (hclosed : ∀ t ∈ ts, ∀ d ∈ t.dependencies, d ∈ ts.map Task.id)
    (hacyc : ∀ u, ¬ Relation.TransGen (depEdge ts) u u) :
    addAll emptyDAG ts2 = Except.ok (derivedDAG ts2)
    ∧ ∃ sorted : List Task,
        topological_sort (derivedDAG ts2) = Except.ok sorted
        ∧ sorted.length = ts.length
        ∧ (sorted.map Task.id).Perm (ts.map Task.id)
        ∧ (∀ pre t post, sorted = pre ++ t :: post →
            ∀ d ∈ t.dependencies, d ∈ pre.map Task.id) := by
  have hmapperm : (ts2.map Task.id).Perm (ts.map Task.id) := hperm.map Task.id
  have hN2 : (ts2.map Task.id).Nodup := hmapperm.nodup_iff.mpr hN
  have hclosed2 : ∀ t ∈ ts2, ∀ d ∈ t.dependencies, d ∈ ts2.map Task.id := by
    intro t ht d hd
    exact hmapperm.mem_iff.mpr (hclosed t (hperm.mem_iff.mp ht) d hd)
  have hdep2 : ∀ a b, depEdge ts2 a b ↔ depEdge ts a b := by
    intro a b
    unfold depEdge
    constructor
    · rintro ⟨task, hm, hi, hd⟩
      exact ⟨task, hperm.mem_iff.mp hm, hi, hd⟩
    · rintro ⟨task, hm, hi, hd⟩
      exact ⟨task, hperm.mem_iff.mpr hm, hi, hd⟩
  have hacyc2 : ∀ u, ¬ Relation.TransGen (depEdge ts2) u u := by
    intro u htg
    exact hacyc u (Relation.TransGen.mono (fun a b hab => (hdep2 a b).mp hab) htg)
  have hadd : addAll emptyDAG ts2 = Except.ok (derivedDAG ts2) :=
    addAll_derived_ok ts2 hacyc2 ts2 [] rfl
  obtain ⟨hnd, hsubids, hdb, hcomp, _⟩ := derivedTopo_main ts2 hN2 hclosed2
  have hall : ∀ k ∈ ts2.map Task.id, k ∈ topoIds (derivedDAG ts2) := hcomp hacyc2
  have hpermR : (topoIds (derivedDAG ts2)).Perm (ts2.map Task.id) := by
    apply List.perm_of_nodup_nodup_toFinset_eq hnd hN2
    apply Finset.ext
    intro x
    rw [List.mem_toFinset, List.mem_toFinset]
    exact ⟨fun h => hsubids x h, fun h => hall x h⟩
  have htasks := derivedDAG_tasks ts2 hN2
  have hkeys : (derivedDAG ts2).tasks.map Prod.fst = ts2.map Task.id := by
    rw [htasks, List.map_map]
    rfl
  have htlen : (derivedDAG ts2).tasks.length = ts2.length := by
    rw [htasks, List.length_map]
  have hRlen : (topoIds (derivedDAG ts2)).length = ts2.length := by
    rw [hpermR.length_eq, List.length_map]
  have hlook : ∀ k ∈ topoIds (derivedDAG ts2),
      ∃ t, dictGet? (derivedDAG ts2).tasks k = some t ∧ t.id = k := by
    intro k hk
    rcases List.mem_map.mp (hsubids k hk) with ⟨t, ht, hid⟩
    refine ⟨t, ?_, hid⟩
    apply dictGet?_of_mem
    · rw [hkeys]
      exact hN2
    · rw [htasks]
      exact List.mem_map.mpr ⟨t, ht, by rw [hid]⟩
  have hmapid : ((topoIds (derivedDAG ts2)).filterMap
      (dictGet? (derivedDAG ts2).tasks)).map Task.id = topoIds (derivedDAG ts2) :=
    filterMapLookup (derivedDAG ts2).tasks (topoIds (derivedDAG ts2)) hlook
  have hsortEq : topological_sort (derivedDAG ts2) =
      Except.ok ((topoIds (derivedDAG ts2)).filterMap
        (dictGet? (derivedDAG ts2).tasks)) := by
    simp only [topological_sort]
    rw [if_pos (by rw [hRlen, htlen])]
  refine ⟨hadd, (topoIds (derivedDAG ts2)).filterMap (dictGet? (derivedDAG ts2).tasks),
    hsortEq, ?_, ?_, ?_⟩
  · have hlen := congrArg List.length hmapid
    rw [List.length_map] at hlen
    rw [hlen, hRlen, hperm.length_eq]
  · rw [hmapid]
    exact hpermR.trans hmapperm
  · intro pre t post hsplit d hd
    have htmem : t ∈ ts2 := by
      have ht : t ∈ (topoIds (derivedDAG ts2)).filterMap
          (dictGet? (derivedDAG ts2).tasks) := by
        rw [hsplit]
        exact List.mem_append.mpr (Or.inr (List.mem_cons_self t post))
      rcases List.mem_filterMap.mp ht with ⟨k, _, hget⟩
      have hpair := dictGet?_mem_pair hget
      rw [htasks] at hpair
      rcases List.mem_map.mp hpair with ⟨t', ht', heq⟩
      have heq' : (t'.id, t') = (k, t) := heq
      injection heq' with h1 h2
      rw [← h2]
      exact ht'
    have hedge : edgeRel (derivedDAG ts2).adjacency_list d t.id :=
      (derived_edge_iff ts2 d t.id).mpr ⟨t, htmem, rfl, hd⟩
    have hidsplit : topoIds (derivedDAG ts2) =
        pre.map Task.id ++ t.id :: post.map Task.id := by
      rw [← hmapid, hsplit, List.map_append, List.map_cons]
    exact hdb (pre.map Task.id) t.id (post.map Task.id) hidsplit d hedge

/-- Witness for the amended C4 at a concrete input: the two-task set
`[task 1; task 2 depending on 1]` inserted in the reversed order succeeds and
produces the derived graph of that order. -/
theorem claim_C4_amended_witness :
    addAll emptyDAG [⟨2, [1], TaskStatus.pending, 100, 1⟩,
        ⟨1, [], TaskStatus.pending, 100, 0⟩] =
      Except.ok (derivedDAG [⟨2, [1], TaskStatus.pending, 100, 1⟩,
        ⟨1, [], TaskStatus.pending, 100, 0⟩]) :=
  (claim_C4_amended
    [⟨1, [], TaskStatus.pending, 100, 0⟩, ⟨2, [1], TaskStatus.pending, 100, 1⟩]
    [⟨2, [1], TaskStatus.pending, 100, 1⟩, ⟨1, [], TaskStatus.pending, 100, 0⟩]
    (by decide) (by decide) (by decide)
    (by
      intro u htg
      have hsrc : ∀ a b, depEdge [⟨1, [], TaskStatus.pending, 100, 0⟩,
          ⟨2, [1], TaskStatus.pending, 100, 1⟩] a b → a = 1 ∧ b = 2 := by
        rintro a b ⟨task, hm, hi, hd⟩
        rcases List.mem_cons.mp hm with h | h
        · rw [h] at hd
          have hd' : a ∈ ([] : List Nat) := hd
          simp at hd'
        · rcases List.mem_cons.mp h with h2 | h2
          · rw [h2] at hi hd
            have hi' : (2 : Nat) = b := hi
            have hd' : a ∈ [1] := hd
            rw [List.mem_singleton] at hd'
            exact ⟨hd', hi'.symm⟩
          · simp at h2
      obtain ⟨w, hw⟩ := transGenHead htg
      obtain ⟨w', hw'⟩ := transGenLast htg
      have h1 := (hsrc u w hw).1
      have h2 := (hsrc w' u hw').2
      omega)).1

/-- C5 counterexample: `topological_sort` can fail without a dependency cycle
being present among the graph's tasks.  The graph holding only task 1, whose
dependency list references the absent task 2, has no cycle (task 1 has no
outgoing edge), yet its dangling edge gives task 1 in-degree 1, the frontier
is empty, the result set is smaller than the task count and the call raises
`DAGCycleError`. -/
theorem claim_C5_counterexample :
    ∃ dag : TaskDAG,
      addAll emptyDAG [⟨1, [2], TaskStatus.pending, 100, 0⟩] = Except.ok dag
      ∧ topological_sort dag = Except.error ()
      ∧ ¬ CyclePresent dag := by
  refine ⟨⟨[(1, ⟨1, [2], TaskStatus.pending, 100, 0⟩)], [(2, [1])], [(1, [2])]⟩,
    rfl, rfl, ?_⟩
  rintro ⟨u, humem, htg⟩
  have hu : u = 1 := by
    have humem' : u ∈ [1] := by
      simpa using humem
    rwa [List.mem_singleton] at humem'
  subst hu
  obtain ⟨w, hw⟩ := transGenHead htg
  have hw' : w ∈ dlGet [(2, [1])] 1 := hw
  simp [dlGet, dictGet?] at hw'

/-- C5 (amended): on graphs whose stored tasks have distinct ids and whose
dependencies all reference present tasks, `topological_sort` raises
`DAGCycleError` if and only if a dependency cycle is present among the
graph's tasks.  (Without the presence hypothesis only the forward direction
holds: a cycle always causes failure, but failure also occurs cycle-free on a
dangling dependency reference — see the counterexample.) -/
theorem claim_C5_amended (ts : List Task)
    (hN : (ts.map Task.id).Nodup)
    (hclosed : ∀ t ∈ ts, ∀ d ∈ t.dependencies, d ∈ ts.map Task.id) :
    (topological_sort (derivedDAG ts) = Except.error ()
      ↔ CyclePresent (derivedDAG ts)) := by
  obtain ⟨hnd, hsubids, hdb, hcomp, hnocyc⟩ := derivedTopo_main ts hN hclosed
  have htasks := derivedDAG_tasks ts hN
  have hkeys : (derivedDAG ts).tasks.map Prod.fst = ts.map Task.id := by
    rw [htasks, List.map_map]
    rfl
  have htlen : (derivedDAG ts).tasks.length = ts.length := by
    rw [htasks, List.length_map]
  constructor
  · intro herr
    by_contra hnc
    have hacyc : ∀ u, ¬ Relation.TransGen (depEdge ts) u u := by
      intro u htg
      apply hnc
      obtain ⟨w', hw'⟩ := transGenLast htg
      obtain ⟨task, htaskm, hid, _⟩ := hw'
      refine ⟨u, ?_, Relation.TransGen.mono
        (fun a b hab => (derived_edge_iff ts a b).mpr hab) htg⟩
      rw [hkeys]
      exact List.mem_map.mpr ⟨task, htaskm, hid⟩
    have hall := hcomp hacyc
    have hpermR : (topoIds (derivedDAG ts)).Perm (ts.map Task.id) := by
      apply List.perm_of_nodup_nodup_toFinset_eq hnd hN
      apply Finset.ext
      intro x
      rw [List.mem_toFinset, List.mem_toFinset]
      exact ⟨fun h => hsubids x h, fun h => hall x h⟩
    have hRlen : (topoIds (derivedDAG ts)).length = ts.length := by
      rw [hpermR.length_eq, List.length_map]
    have hok : topological_sort (derivedDAG ts) ≠ Except.error () := by
      simp only [topological_sort]
      rw [if_pos (by rw [hRlen, htlen])]
      intro hcontra
      cases hcontra
    exact hok herr
  · intro hcyc
    obtain ⟨u, hukeys, hutg⟩ := hcyc
    have hudep : Relation.TransGen (depEdge ts) u u :=
      Relation.TransGen.mono (fun a b hab => (derived_edge_iff ts a b).mp hab) hutg
    have huR : u ∉ topoIds (derivedDAG ts) := fun h => hnocyc u h hudep
    have huid : u ∈ ts.map Task.id := by
      rw [← hkeys]
      exact hukeys
    have hlt : (topoIds (derivedDAG ts)).length < ts.length := by
      have hcons : (u :: topoIds (derivedDAG ts)).Nodup :=
        List.nodup_cons.mpr ⟨huR, hnd⟩
      have hsub' : ∀ x ∈ u :: topoIds (derivedDAG ts), x ∈ ts.map Task.id := by
        intro x hx
        rcases List.mem_cons.mp hx with h | h
        · exact h ▸ huid
        · exact hsubids x h
      have hle := nodupSubsetLength hcons hsub'
      rw [List.length_cons, List.length_map] at hle
      omega
    simp only [topological_sort]
    rw [if_neg (by rw [htlen]; omega)]

/-- Witness for the amended C5 at a concrete input: on the one-task graph of
the dependency-free task 1 the sort succeeds, matching the absence of a
cycle. -/
theorem claim_C5_amended_witness :
    (topological_sort (derivedDAG [⟨1, [], TaskStatus.pending, 100, 0⟩]) =
        Except.error ()
      ↔ CyclePresent (derivedDAG [⟨1, [], TaskStatus.pending, 100, 0⟩])) :=
  claim_C5_amended [⟨1, [], TaskStatus.pending, 100, 0⟩] (by decide) (by decide)

end CodexAgent
